import Mathlib

/-!
Verification of the SEO metadata generator (`app.py`).

Strings are modelled as `List Char`.  Python's `str` helpers (`strip`,
`rstrip`, `lower`, `split`, substring test `in`) are embedded as executable
Lean functions over `List Char`; each definition is translated from the
Python source it names.  Character classes are modelled on the ASCII range
(all inputs exercised here are ASCII or fixed Turkish template literals that
are never case-converted).
-/

set_option maxRecDepth 20000

/-- Python whitespace characters recognised by `str.strip` / `str.split`
(ASCII range; the Unicode whitespace code points do not occur here). -/
def pySpace (c : Char) : Bool :=
  c == ' ' || c == '\t' || c == '\n' || c == '\r' || c == '\x0b' || c == '\x0c'

/-- Python `str.strip()`: drop leading and trailing whitespace. -/
def pyStrip (l : List Char) : List Char :=
  ((l.dropWhile pySpace).reverse.dropWhile pySpace).reverse

/-- Python `str.rstrip(cut)`: drop trailing characters belonging to `cut`. -/
def pyRstrip (cut : List Char) (l : List Char) : List Char :=
  (l.reverse.dropWhile (fun c => cut.contains c)).reverse

/-- Python `str.lower()` restricted to char-wise ASCII mapping (the dotted
and dotless Turkish i, whose mappings are not char-wise, are outside the
inputs considered). -/
def pyLower (l : List Char) : List Char :=
  l.map Char.toLower

/-- The cut set of `rstrip(",.;:- ")` in `trim_to_limit`. -/
def trimPunct : List Char := [',', '.', ';', ':', '-', ' ']

/-- Index of the last `' '` in a list (Python `str.rfind(" ")`, with `none`
for Python's `-1`). -/
def lastSpaceIdx : List Char → Option Nat
  | [] => none
  | c :: cs =>
    match lastSpaceIdx cs with
    | some i => some (i + 1)
    | none => if c = ' ' then some 0 else none

/-- `trim_to_limit` (app.py 49–60): strip the text; if it fits in
`max_chars`, return it; otherwise cut at the last space within the first
`max_chars + 1` characters (or hard at `max_chars` when there is none) and
strip trailing `",.;:- "` characters. -/
def trim_to_limit (text : List Char) (max_chars : Nat) : List Char :=
  let t := pyStrip text
  if t.length ≤ max_chars then t
  else
    let cut_off_index :=
      match lastSpaceIdx (t.take (max_chars + 1)) with
      | some i => i
      | none => max_chars
    pyRstrip trimPunct (t.take cut_off_index)

def TRIM_TITLE_MAX : Nat := 60
def TRIM_DESC_MAX : Nat := 155

/-- The loop body of `pick_product_type` (app.py 66–73) over the candidate
list `[sub_cat, cat, main_cat]`: a truthy candidate whose stripped form has
length ≥ 3 is returned lower-cased; otherwise the loop continues. -/
def pickFrom : List (List Char) → List Char
  | [] => []
  | c :: rest =>
    if c ≠ [] ∧ 3 ≤ (pyStrip c).length then pyLower (pyStrip c)
    else pickFrom rest

/-- `pick_product_type` (app.py 66–73). -/
def pick_product_type (main_cat cat sub_cat : List Char) : List Char :=
  pickFrom [sub_cat, cat, main_cat]

/-- Single-space join of a list of words (Python `" ".join`). -/
def joinSpace : List (List Char) → List Char
  | [] => []
  | [w] => w
  | w :: ws => w ++ ' ' :: joinSpace ws

/-- `smart_join` (app.py 75–77): strip each part, drop falsy/blank parts,
join the rest with single spaces. -/
def smart_join (parts : List (List Char)) : List Char :=
  joinSpace ((parts.map pyStrip).filter (fun p => p ≠ []))

/-- `sentence_case` (app.py 79–84): strip, then upper-case the first
character (Python `str.upper` on one char; ASCII mapping). -/
def sentence_case (text : List Char) : List Char :=
  match pyStrip text with
  | [] => []
  | c :: rest => c.toUpper :: rest

/-- Split at the first `'>'`: `findGt l = some (before, after)` when
`l = before ++ '>' :: after` with `'>' ∉ before`; `none` when `l` has no
`'>'`.  Helper for the regex `<[^>]+>` of `TAG_RE`. -/
def findGt : List Char → Option (List Char × List Char)
  | [] => none
  | c :: cs =>
    if c = '>' then some ([], cs)
    else (findGt cs).map (fun p => (c :: p.1, p.2))

theorem findGt_snd_length :
    ∀ {l b a : List Char}, findGt l = some (b, a) → a.length < l.length := by
  intro l
  induction l with
  | nil => intro b a h; simp [findGt] at h
  | cons c cs ih =>
    intro b a h
    by_cases hc : c = '>'
    · simp only [findGt, if_pos hc, Option.some.injEq, Prod.mk.injEq] at h
      simp only [← h.2, List.length_cons]
      omega
    · simp only [findGt, if_neg hc, Option.map_eq_some'] at h
      obtain ⟨⟨b1, a1⟩, hp, hpe⟩ := h
      have ha : a1 = a := (Prod.mk.injEq _ _ _ _ ▸ hpe).2
      have := ih hp
      rw [ha] at this
      simp only [List.length_cons]
      omega

/-- `TAG_RE.sub("", ·)` (app.py 34, 43), fuel-indexed so that the scanner is
structurally recursive: delete every leftmost match of `<[^>]+>`, i.e. a
`'<'`, at least one non-`'>'` character, then `'>'`.  The fuel never runs
out when it starts at the input length (`stripTags`). -/
def stripTagsAux : Nat → List Char → List Char
  | 0, _ => []
  | _ + 1, [] => []
  | fuel + 1, c :: cs =>
    if c = '<' then
      match findGt cs with
      | some (before, after) =>
        if before = [] then '<' :: stripTagsAux fuel cs else stripTagsAux fuel after
      | none => '<' :: stripTagsAux fuel cs
    else c :: stripTagsAux fuel cs

/-- `TAG_RE.sub("", ·)` (app.py 34, 43). -/
def stripTags (l : List Char) : List Char :=
  stripTagsAux l.length l

/-- Characters allowed in an HTML entity name by Python's charref regex
`[^\t\n\f <&#;]`. -/
def entNameChar (c : Char) : Bool :=
  !(c == '\t' || c == '\n' || c == '\x0c' || c == ' ' || c == '<' || c == '&' ||
    c == '#' || c == ';')

/-- Modelled from Python's `html.unescape` entity table restricted to the
named entities `amp`, `lt`, `gt`, `quot` (with and without the trailing
semicolon); the numeric character references and the remaining HTML5 names
do not occur in the inputs considered. -/
def entityTable : List (List Char × List Char) :=
  [("amp;".toList, "&".toList), ("amp".toList, "&".toList),
   ("lt;".toList, "<".toList), ("lt".toList, "<".toList),
   ("gt;".toList, ">".toList), ("gt".toList, ">".toList),
   ("quot;".toList, "\"".toList), ("quot".toList, "\"".toList)]

/-- Longest-prefix entity lookup of Python's `html._replace_charref`:
try `s.take x` for `x` from `top` down to `2`; on a hit return the
replacement together with the unconsumed tail of `s`. -/
def entLookupLongest (s : List Char) : Nat → Option (List Char × List Char)
  | 0 => none
  | 1 => none
  | Nat.succ n =>
    match entityTable.lookup (s.take (n + 1)) with
    | some v => some (v, s.drop (n + 1))
    | none => entLookupLongest s n

/-- Whether `l` begins with `';'` (the optional semicolon of the charref
regex). -/
def startsSemi (l : List Char) : Bool :=
  match l with
  | ';' :: _ => true
  | _ => false

/-- One `html.unescape` replacement step at a position just after `'&'`:
returns the emitted text and the remaining input. -/
def unescStep (cs : List Char) : List Char × List Char :=
  let name := cs.takeWhile entNameChar
  if name = [] then (['&'], cs)
  else
    let rest := cs.drop name.length
    let s := if startsSemi rest then name ++ [';'] else name
    let rest2 := if startsSemi rest then rest.tail else rest
    match entLookupLongest s s.length with
    | some (v, leftover) => (v ++ leftover, rest2)
    | none => ('&' :: s, rest2)

theorem unescStep_snd_length (cs : List Char) :
    (unescStep cs).2.length ≤ cs.length := by
  unfold unescStep
  by_cases hn : cs.takeWhile entNameChar = []
  · simp [hn]
  · simp only [hn, if_neg, ite_false]
    have hdrop : (cs.drop (cs.takeWhile entNameChar).length).length ≤ cs.length := by
      simp [List.length_drop]
    have htail : (cs.drop (cs.takeWhile entNameChar).length).tail.length ≤ cs.length := by
      have := (cs.drop (cs.takeWhile entNameChar).length).length_tail
      omega
    have h2 : (if startsSemi (cs.drop (cs.takeWhile entNameChar).length) then
        (cs.drop (cs.takeWhile entNameChar).length).tail else
        (cs.drop (cs.takeWhile entNameChar).length)).length ≤ cs.length := by
      split <;> assumption
    split <;> simpa using h2

/-- Modelled from Python's `html.unescape` (called at app.py 44),
fuel-indexed for structural recursion: scan left to right; at each `'&'`
take the maximal run of entity-name characters, an optional `';'`, resolve
it through the longest-prefix table lookup, emit the replacement (or the
original text when no entity matches) and continue after the consumed
region.  The 32-character name cap is immaterial for the table modelled
here. -/
def pyUnescapeAux : Nat → List Char → List Char
  | 0, _ => []
  | _ + 1, [] => []
  | fuel + 1, c :: cs =>
    if c = '&' then (unescStep cs).1 ++ pyUnescapeAux fuel (unescStep cs).2
    else c :: pyUnescapeAux fuel cs

/-- Python's `html.unescape` (called at app.py 44). -/
def pyUnescape (l : List Char) : List Char :=
  pyUnescapeAux l.length l

/-- Python `str.split()` (no argument), fuel-indexed for structural
recursion: the maximal whitespace-free runs, in order, empties discarded. -/
def pyWordsAux : Nat → List Char → List (List Char)
  | 0, _ => []
  | _ + 1, [] => []
  | fuel + 1, c :: cs =>
    if pySpace c then pyWordsAux fuel cs
    else (c :: cs.takeWhile (fun x => !pySpace x)) ::
      pyWordsAux fuel (cs.dropWhile (fun x => !pySpace x))

/-- Python `str.split()` (no argument). -/
def pyWords (l : List Char) : List (List Char) :=
  pyWordsAux l.length l

/-- `" ".join(text.split())` (app.py 46). -/
def collapseWS (l : List Char) : List Char :=
  joinSpace (pyWords l)

/-- `clean_html` (app.py 39–47): empty input yields empty output; otherwise
strip tags, decode entities, collapse whitespace, strip the ends. -/
def clean_html (raw_html : List Char) : List Char :=
  if raw_html = [] then []
  else pyStrip (collapseWS (pyUnescape (stripTags raw_html)))

/-- Python's substring test `needle in hay`. -/
def isSubstr (needle : List Char) : List Char → Bool
  | [] => needle.isEmpty
  | c :: cs => needle.isPrefixOf (c :: cs) || isSubstr needle cs

/-- Regex word character `\w` (ASCII model; the inputs considered contain
no non-ASCII word characters at the match boundaries). -/
def isWordCh (c : Char) : Bool :=
  c.isAlpha || c.isDigit || c == '_'

/-- The unit alternation of the attribute pattern
`\b(\d{2,4}\s?(gb|ml|l|cm|mm|w))\b` (app.py 102, 153), in the order the
regex tries it. -/
def attrUnits : List (List Char) :=
  ["gb".toList, "ml".toList, "l".toList, "cm".toList, "mm".toList, "w".toList]

/-- `\b` holds after the unit when the next character is absent or not a
word character. -/
def boundaryAfter (rest : List Char) : Bool :=
  match rest with
  | [] => true
  | c :: _ => !isWordCh c

/-- Match `(gb|ml|l|cm|mm|w)\b` at the start of `s`: the first alternative
that is a prefix of `s` and is followed by a word boundary. -/
def matchUnit (s : List Char) : Option (List Char) :=
  attrUnits.find? (fun u => u.isPrefixOf s && boundaryAfter (s.drop u.length))

/-- Match `\s?(gb|ml|l|cm|mm|w)\b` at the start of `s`; the optional
whitespace is greedy, with backtracking to the empty alternative. -/
def matchTail (s : List Char) : Option (List Char) :=
  match s with
  | [] => none
  | c :: cs =>
    if pySpace c then
      match matchUnit cs with
      | some u => some (c :: u)
      | none => matchUnit s
    else matchUnit s

/-- Match exactly `k` digits at the start of `s` followed by the tail of the
attribute pattern; returns the whole matched text. -/
def matchDigitsFrom (s : List Char) (k : Nat) : Option (List Char) :=
  let ds := s.take k
  if ds.length = k ∧ ds.all Char.isDigit then
    (matchTail (s.drop k)).map (fun t => ds ++ t)
  else none

/-- Match `\d{2,4}\s?(gb|ml|l|cm|mm|w)\b` at the start of `s`, the digit
counter greedy from 4 down to 2. -/
def matchAttrAt (s : List Char) : Option (List Char) :=
  match matchDigitsFrom s 4 with
  | some g => some g
  | none =>
    match matchDigitsFrom s 3 with
    | some g => some g
    | none => matchDigitsFrom s 2

/-- Leftmost search for the attribute pattern, threading the previous
character for the leading `\b` (the pattern starts with a digit, so the
boundary holds exactly when the previous character is absent or not a word
character). -/
def searchAttrAux : Option Char → List Char → Option (List Char)
  | _, [] => none
  | prev, c :: cs =>
    let boundaryOk : Bool :=
      match prev with
      | none => true
      | some p => !isWordCh p
    match (if boundaryOk then matchAttrAt (c :: cs) else none) with
    | some g => some g
    | none => searchAttrAux (some c) cs

/-- `re.search(r"\b(\d{2,4}\s?(gb|ml|l|cm|mm|w))\b", ·)` returning
`m.group(0)` (app.py 102–104, 153–155). -/
def findAttr (l : List Char) : Option (List Char) :=
  searchAttrAux none l

/-- `generate_title` (app.py 89–107): join brand, label and the picked
product type, trim to 60; when the result is shorter than 48 and a product
type exists, look for a numeric attribute inside the lower-cased label and,
when found and not already a substring of the lower-cased title, rebuild
with it and re-trim to 60. -/
def generate_title (brand label main_cat cat sub_cat : List Char) : List Char :=
  let product_type := pick_product_type main_cat cat sub_cat
  let base := smart_join [brand, label, product_type]
  let title := trim_to_limit base TRIM_TITLE_MAX
  if title.length < 48 ∧ product_type ≠ [] then
    match findAttr (pyLower label) with
    | some g =>
      if isSubstr g (pyLower title) then title
      else trim_to_limit (smart_join [brand, label, g, product_type]) TRIM_TITLE_MAX
    | none => title
  else title

/-- Sentence-terminating punctuation of `re.split(r"[\.!\?]+", ·)`. -/
def isSentPunct (c : Char) : Bool :=
  c == '.' || c == '!' || c == '?'

/-- `re.split(r"[\.!\?]+", ·)` (app.py 117), fuel-indexed for structural
recursion: split on maximal runs of sentence punctuation (the fuel never
runs out when it starts at the input length). -/
def splitRunsAux : Nat → List Char → List (List Char)
  | 0, l => [l.takeWhile (fun c => !isSentPunct c)]
  | fuel + 1, l =>
    let seg := l.takeWhile (fun c => !isSentPunct c)
    let rest := l.dropWhile (fun c => !isSentPunct c)
    match rest with
    | [] => [seg]
    | _ :: _ => seg :: splitRunsAux fuel (rest.dropWhile isSentPunct)

/-- `re.split(r"[\.!\?]+", ·)` (app.py 117). -/
def splitRuns (l : List Char) : List (List Char) :=
  splitRunsAux l.length l

/-- `[s.strip() for s in re.split(...) if s.strip()]` (app.py 117). -/
def descSentences (clean_details : List Char) : List (List Char) :=
  ((splitRuns clean_details).map pyStrip).filter (fun s => s ≠ [])

/-- The fixed trailing clause of the product-type template (app.py 128). -/
def descClause1 : List Char :=
  ". Günlük kullanıma uygun, net ve pratik bir seçimdir.".toList

/-- The fixed trailing clause of the no-product-type template (app.py 130). -/
def descClause2 : List Char :=
  " ile ihtiyacınızı karşılayan pratik bir çözümdür.".toList

/-- `generate_description` (app.py 109–131): prefer the first non-blank
sentence of the details when, capitalised and trimmed to 155, it is at
least 120 characters long; otherwise build the template sentence from
brand, label and the lower-cased stripped category name and trim it to
155. -/
def generate_description (clean_details brand label category_name : List Char) :
    List Char :=
  let extracted : Option (List Char) :=
    if clean_details ≠ [] then
      match (descSentences clean_details).head? with
      | some s0 =>
        let cand := trim_to_limit (sentence_case s0) TRIM_DESC_MAX
        if 120 ≤ cand.length then some cand else none
      | none => none
    else none
  match extracted with
  | some cand => cand
  | none =>
    let product_type := pyStrip (pyLower category_name)
    let base := smart_join [brand, label, product_type]
    let sent :=
      if product_type ≠ [] then sentence_case base ++ descClause1
      else sentence_case (smart_join [brand, label]) ++ descClause2
    trim_to_limit sent TRIM_DESC_MAX

/-- The keyword list after step 1 of `generate_keywords` (app.py 140–147):
the combined `"brand label"` phrase when both are present, else whichever
of the two is present. -/
def kwsStage1 (brand label : List Char) : List (List Char) :=
  if brand ≠ [] ∧ label ≠ [] then [brand ++ ' ' :: label]
  else (if brand ≠ [] then [brand] else []) ++ (if label ≠ [] then [label] else [])

/-- The keyword list after step 2 (app.py 149–151): append the product type
unless it is empty or already a substring of the lower-cased space-join of
the keywords collected so far. -/
def kwsStage2 (brand label main_cat cat sub_cat : List Char) : List (List Char) :=
  let kws := kwsStage1 brand label
  let product_type := pick_product_type main_cat cat sub_cat
  if product_type ≠ [] ∧ ¬ isSubstr product_type (pyLower (joinSpace kws)) then
    kws ++ [product_type]
  else kws

/-- The keyword list after step 3 (app.py 153–157): append the numeric
attribute found in the lower-cased label unless it is already a substring
of some lower-cased collected keyword. -/
def kwsStage3 (brand label main_cat cat sub_cat : List Char) : List (List Char) :=
  let kws := kwsStage2 brand label main_cat cat sub_cat
  match findAttr (pyLower label) with
  | some val =>
    if ¬ kws.any (fun k => isSubstr val (pyLower k)) then kws ++ [val]
    else kws
  | none => kws

/-- `", ".join` (app.py 159). -/
def joinCommaSpace : List (List Char) → List Char
  | [] => []
  | [w] => w
  | w :: ws => w ++ ',' :: ' ' :: joinCommaSpace ws

/-- `generate_keywords` (app.py 133–159); `details_text` is accepted and
unused, as in the source. -/
def generate_keywords (brand label main_cat cat sub_cat details_text : List Char) :
    List Char :=
  joinCommaSpace ((kwsStage3 brand label main_cat cat sub_cat).take 3)

/-- A generation result: the three metadata strings written into a row. -/
structure MetaResult where
  title : List Char
  description : List Char
  keywords : List Char
deriving DecidableEq

/-- The `keywords` field of the parsed LLM JSON (app.py 211–215): either a
JSON array of values or a scalar coerced with `str`. -/
inductive KwField where
  | arr (ks : List (List Char))
  | scalar (s : List Char)
deriving DecidableEq

/-- The parsed JSON object of a successful LLM call, its `title` and
`description` fields already coerced with `str` and defaulted to `""` when
missing (app.py 209–211). -/
structure LlmPayload where
  title : List Char
  description : List Char
  keywords : KwField
deriving DecidableEq

/-- `llm_generate_meta` (app.py 164–224) with the external call abstracted:
`resp = none` models every failure path — LLM disabled, network error,
malformed JSON — where the enclosing `try/except` (or the early return)
yields `None`; `resp = some p` models a successfully parsed response.
Successful payloads are trimmed to the 60/155 budgets, the keyword array is
stripped, filtered, comma-space-joined and capped at 200 characters (a
scalar is stripped only), and the quality gate turns too-short titles or
descriptions or empty keywords into `None`. -/
def llm_generate_meta (resp : Option LlmPayload) : Option MetaResult :=
  match resp with
  | none => none
  | some p =>
    let title := trim_to_limit (pyStrip p.title) TRIM_TITLE_MAX
    let desc := trim_to_limit (pyStrip p.description) TRIM_DESC_MAX
    let keywords :=
      match p.keywords with
      | KwField.arr ks =>
        (joinCommaSpace ((ks.map pyStrip).filter (fun x => x ≠ []))).take 200
      | KwField.scalar s => pyStrip s
    if title.length < 45 ∨ desc.length < 120 ∨ keywords = [] then none
    else some ⟨title, desc, keywords⟩

/-- A spreadsheet cell as the row loop observes it: missing (`pd.isna`),
numeric, or textual.  Numeric cells are rendered with an integer `str`;
the claims never depend on the rendering of a numeric cell. -/
inductive Cell where
  | na
  | num (n : Int)
  | str (s : List Char)
deriving DecidableEq

/-- Digits of a natural number, fuel-indexed for structural recursion. -/
def natToStrAux : Nat → Nat → List Char
  | 0, _ => []
  | fuel + 1, n =>
    if n < 10 then [Char.ofNat (48 + n)]
    else natToStrAux fuel (n / 10) ++ [Char.ofNat (48 + n % 10)]

/-- `str` of an integer cell value. -/
def intToStr (n : Int) : List Char :=
  match n with
  | Int.ofNat m => natToStrAux (m + 1) m
  | Int.negSucc m => '-' :: natToStrAux (m + 2) (m + 1)

/-- `str(row[col]) if not pd.isna(row[col]) else ""` (app.py 300–316). -/
def cellToStr (c : Cell) : List Char :=
  match c with
  | Cell.na => []
  | Cell.num n => intToStr n
  | Cell.str s => s

/-- One spreadsheet row under the columns the loop reads and writes.
`details` is the details-like column when one exists; a sheet without such
a column behaves as `Cell.na` (both give an empty `details_text`). -/
structure Row where
  rootProductStockCode : Cell
  title : Cell
  description : Cell
  keywords : Cell
  brand : Cell
  label : Cell
  mainCategory : Cell
  category : Cell
  subCategory : Cell
  details : Cell
deriving DecidableEq

/-- Python `a or b` on two strings: the first when truthy, else the
second (app.py 331). -/
def pyOrElse (a b : List Char) : List Char :=
  if a ≠ [] then a else b

/-- The body of the row loop of `upload_file` (app.py 291–338) for one row,
the LLM call abstracted as `llm_out` (the value `llm_generate_meta`
returned for this row).  Non-root rows (`rootProductStockCode` missing,
non-zero, or non-numeric — a Python string never compares equal to `0`)
and rows with any non-empty metadata cell are left untouched; otherwise
the three metadata cells are written, from the LLM result when it is fully
populated and from the rule-based generators otherwise. -/
def rowStep (llm_out : Option MetaResult) (r : Row) : Row :=
  match r.rootProductStockCode with
  | Cell.num 0 =>
    let current_title := cellToStr r.title
    let current_desc := cellToStr r.description
    let current_keywords := cellToStr r.keywords
    if current_title ≠ [] ∨ current_desc ≠ [] ∨ current_keywords ≠ [] then r
    else
      let brand := cellToStr r.brand
      let label := cellToStr r.label
      let main_cat := cellToStr r.mainCategory
      let cat := cellToStr r.category
      let sub_cat := cellToStr r.subCategory
      let details_text := clean_html (cellToStr r.details)
      let new_title := match llm_out with | some o => o.title | none => []
      let new_desc := match llm_out with | some o => o.description | none => []
      let new_keywords := match llm_out with | some o => o.keywords | none => []
      if new_title = [] ∨ new_desc = [] ∨ new_keywords = [] then
        { r with
          title := Cell.str (generate_title brand label main_cat cat sub_cat),
          description := Cell.str (generate_description details_text brand label
            (pyOrElse sub_cat (pyOrElse cat main_cat))),
          keywords := Cell.str (generate_keywords brand label main_cat cat sub_cat
            details_text) }
      else
        { r with
          title := Cell.str new_title,
          description := Cell.str new_desc,
          keywords := Cell.str new_keywords }
  | _ => r

/-- `out` does not end in the middle of a word of `s`: it is empty, or a
prefix of `s` whose following character (when there is one) is whitespace
or one of the punctuation characters `trim_to_limit` strips from the end of
a cut. -/
def noMidWordCut (s out : List Char) : Bool :=
  out.isEmpty ||
  (out.isPrefixOf s &&
    (match s.drop out.length with
     | [] => true
     | c :: _ => trimPunct.contains c))

/-- The Field Selector as the claim states it: the first of subCategory,
category, mainCategory whose stripped length is at least 3 characters,
lower-cased and stripped; empty when none qualifies. -/
def pickSpec (main_cat cat sub_cat : List Char) : List Char :=
  match [sub_cat, cat, main_cat].find? (fun x => 3 ≤ (pyStrip x).length) with
  | some x => pyLower (pyStrip x)
  | none => []

/-- Capitalisation of the first character (the claim's
first-character-capitalisation). -/
def capFirst : List Char → List Char
  | [] => []
  | c :: rest => c.toUpper :: rest

/-- The Description Generator as the claim states it: when the cleaned
detail text is non-empty, the first non-empty stripped segment of the split
on runs of `.`, `!`, `?`, first-character-capitalised and trimmed to 155,
is returned exactly when its length is at least 120; otherwise the
templated sentence — brand, label, lower-cased product type, plus the fixed
trailing clause chosen by whether a product type exists —
first-letter-capitalised and trimmed to 155. -/
def genDescriptionClaim (clean_details brand label category_name : List Char) :
    List Char :=
  let firstSeg := ((splitRuns clean_details).map pyStrip).find? (fun s => s ≠ [])
  let product_type := pyStrip (pyLower category_name)
  let templated :=
    if product_type ≠ [] then
      capFirst (smart_join [brand, label, product_type] ++ descClause1)
    else
      capFirst (smart_join [brand, label] ++ descClause2)
  if clean_details ≠ [] then
    match firstSeg with
    | some s =>
      let extractedTrimmed := trim_to_limit (capFirst s) TRIM_DESC_MAX
      if 120 ≤ extractedTrimmed.length then extractedTrimmed
      else trim_to_limit templated TRIM_DESC_MAX
    | none => trim_to_limit templated TRIM_DESC_MAX
  else trim_to_limit templated TRIM_DESC_MAX

theorem dropWhile_length_le (p : Char → Bool) (l : List Char) :
    (l.dropWhile p).length ≤ l.length :=
  (List.dropWhile_sublist p).length_le

theorem pyStrip_length_le (l : List Char) : (pyStrip l).length ≤ l.length := by
  unfold pyStrip
  have h1 := dropWhile_length_le pySpace l
  have h2 := dropWhile_length_le pySpace (l.dropWhile pySpace).reverse
  simp only [List.length_reverse] at h2 ⊢
  omega

theorem pyRstrip_length_le (cut l : List Char) :
    (pyRstrip cut l).length ≤ l.length := by
  unfold pyRstrip
  have h := dropWhile_length_le (fun c => cut.contains c) l.reverse
  simp only [List.length_reverse] at h ⊢
  exact h

theorem lastSpaceIdx_lt :
    ∀ {l : List Char} {i : Nat}, lastSpaceIdx l = some i → i < l.length := by
  intro l
  induction l with
  | nil => intro i h; simp [lastSpaceIdx] at h
  | cons c cs ih =>
    intro i h
    unfold lastSpaceIdx at h
    cases hr : lastSpaceIdx cs with
    | some j =>
      rw [hr] at h
      simp only [Option.some.injEq] at h
      have := ih hr
      simp only [List.length_cons]
      omega
    | none =>
      rw [hr] at h
      by_cases hc : c = ' '
      · simp only [if_pos hc, Option.some.injEq] at h
        simp only [List.length_cons]
        omega
      · simp [if_neg hc] at h

/-- The output of `trim_to_limit` never exceeds the budget. -/
theorem trim_to_limit_length_le (text : List Char) (n : Nat) :
    (trim_to_limit text n).length ≤ n := by
  unfold trim_to_limit
  by_cases hfit : (pyStrip text).length ≤ n
  · simpa [hfit]
  · simp only [if_neg hfit]
    cases hidx : lastSpaceIdx ((pyStrip text).take (n + 1)) with
    | some i =>
      have hi : i < ((pyStrip text).take (n + 1)).length := lastSpaceIdx_lt hidx
      have hi2 : i ≤ n := by
        have := List.length_take_le (n + 1) (pyStrip text)
        omega
      calc (pyRstrip trimPunct ((pyStrip text).take i)).length
          ≤ ((pyStrip text).take i).length := pyRstrip_length_le _ _
        _ ≤ i := List.length_take_le i (pyStrip text)
        _ ≤ n := hi2
    | none =>
      calc (pyRstrip trimPunct ((pyStrip text).take n)).length
          ≤ ((pyStrip text).take n).length := pyRstrip_length_le _ _
        _ ≤ n := List.length_take_le n (pyStrip text)

/-- C1: for every input string and positive budget the Budget Trimmer's
output has length at most the budget, and whenever the input already fits
the budget the output is exactly the input with outer whitespace
stripped. -/
theorem trim_to_limit_budget (text : List Char) (budget : Nat) (hpos : 0 < budget) :
    (trim_to_limit text budget).length ≤ budget ∧
    (text.length ≤ budget → trim_to_limit text budget = pyStrip text) := by
  refine ⟨trim_to_limit_length_le text budget, fun hle => ?_⟩
  have : (pyStrip text).length ≤ budget := le_trans (pyStrip_length_le text) hle
  unfold trim_to_limit
  simp [this]

/-- Witness for C1 at concrete inputs. -/
theorem trim_to_limit_budget_witness :
    (trim_to_limit "abcdef ghijk".toList 8).length ≤ 8 ∧
    trim_to_limit " abc ".toList 8 = pyStrip " abc ".toList :=
  ⟨(trim_to_limit_budget "abcdef ghijk".toList 8 (by decide)).1,
   (trim_to_limit_budget " abc ".toList 8 (by decide)).2 (by decide)⟩

theorem generate_title_le (brand label main_cat cat sub_cat : List Char) :
    (generate_title brand label main_cat cat sub_cat).length ≤ 60 := by
  unfold generate_title
  simp only []
  split
  · split
    · split
      · exact trim_to_limit_length_le _ _
      · exact trim_to_limit_length_le _ _
    · exact trim_to_limit_length_le _ _
  · exact trim_to_limit_length_le _ _

/-- C3: the Title Generator's output never exceeds 60 characters, and on
all-empty inputs it returns the empty string. -/
theorem generate_title_bounds :
    (∀ brand label main_cat cat sub_cat : List Char,
      (generate_title brand label main_cat cat sub_cat).length ≤ 60) ∧
    generate_title [] [] [] [] [] = [] :=
  ⟨generate_title_le, by decide⟩

theorem head_dropWhile_false (p : Char → Bool) :
    ∀ (l : List Char) {c : Char}, (l.dropWhile p).head? = some c → p c = false := by
  intro l
  induction l with
  | nil => intro c h; simp [List.dropWhile] at h
  | cons a l ih =>
    intro c h
    rw [List.dropWhile_cons] at h
    by_cases hp : p a
    · rw [if_pos hp] at h
      exact ih h
    · rw [if_neg hp] at h
      simp only [List.head?_cons, Option.some.injEq] at h
      rw [← h]
      simpa using hp

theorem dropWhile_eq_self_of_head (p : Char → Bool) (l : List Char)
    (h : ∀ c, l.head? = some c → p c = false) : l.dropWhile p = l := by
  cases l with
  | nil => rfl
  | cons a l =>
    rw [List.dropWhile_cons, if_neg]
    simp [h a rfl]

theorem suffix_getLast? {s l : List Char} (h : s <:+ l) (hne : s ≠ []) :
    s.getLast? = l.getLast? := by
  obtain ⟨t, ht⟩ := h
  rw [← ht, List.getLast?_append_of_ne_nil t hne]

theorem pyStrip_head?_false (l : List Char) {c : Char}
    (h : (pyStrip l).head? = some c) : pySpace c = false := by
  unfold pyStrip at h
  rw [List.head?_reverse] at h
  have hne : (l.dropWhile pySpace).reverse.dropWhile pySpace ≠ [] := by
    intro hnil
    rw [hnil] at h
    simp at h
  rw [suffix_getLast? (List.dropWhile_suffix pySpace) hne, List.getLast?_reverse] at h
  exact head_dropWhile_false pySpace _ h

theorem pyStrip_getLast?_false (l : List Char) {c : Char}
    (h : (pyStrip l).getLast? = some c) : pySpace c = false := by
  unfold pyStrip at h
  rw [List.getLast?_reverse] at h
  exact head_dropWhile_false pySpace _ h

theorem pyStrip_eq_self (l : List Char)
    (h1 : ∀ c, l.head? = some c → pySpace c = false)
    (h2 : ∀ c, l.getLast? = some c → pySpace c = false) : pyStrip l = l := by
  unfold pyStrip
  rw [dropWhile_eq_self_of_head _ _ h1]
  rw [dropWhile_eq_self_of_head _ _ (fun c hc => h2 c (by rwa [List.head?_reverse] at hc))]
  exact List.reverse_reverse l

theorem pyStrip_idem (l : List Char) : pyStrip (pyStrip l) = pyStrip l :=
  pyStrip_eq_self _ (fun _ h => pyStrip_head?_false l h)
    (fun _ h => pyStrip_getLast?_false l h)

/-- A word fit to be a `joinSpace` component without disturbing outer
strips: non-empty with non-whitespace first and last characters. -/
def StrippedWord (w : List Char) : Prop :=
  w ≠ [] ∧ (∀ c, w.head? = some c → pySpace c = false) ∧
    (∀ c, w.getLast? = some c → pySpace c = false)

theorem strippedWord_pyStrip {w : List Char} (h : ∃ x, w = pyStrip x) (hne : w ≠ []) :
    StrippedWord w := by
  obtain ⟨x, rfl⟩ := h
  exact ⟨hne, fun _ hc => pyStrip_head?_false x hc, fun _ hc => pyStrip_getLast?_false x hc⟩

theorem joinSpace_ne_nil :
    ∀ (ws : List (List Char)), ws ≠ [] → (∀ w ∈ ws, w ≠ []) → joinSpace ws ≠ [] := by
  intro ws
  match ws with
  | [] => intro h; exact absurd rfl h
  | [w] =>
    intro _ hall
    simpa [joinSpace] using hall w (by simp)
  | w :: v :: rest =>
    intro _ hall
    show w ++ ' ' :: joinSpace (v :: rest) ≠ []
    simp

theorem joinSpace_head? (w : List Char) (ws : List (List Char)) (hw : w ≠ []) :
    (joinSpace (w :: ws)).head? = w.head? := by
  match ws with
  | [] => rfl
  | v :: rest =>
    show (w ++ ' ' :: joinSpace (v :: rest)).head? = w.head?
    exact List.head?_append_of_ne_nil w hw

theorem joinSpace_getLast? :
    ∀ (ws : List (List Char)) (w : List Char), (∀ u ∈ ws, u ≠ []) →
      ws.getLast? = some w → (joinSpace ws).getLast? = w.getLast? := by
  intro ws
  induction ws with
  | nil => intro w _ h; simp at h
  | cons u rest ih =>
    intro w hall hlast
    match rest with
    | [] =>
      simp only [List.getLast?_singleton, Option.some.injEq] at hlast
      rw [← hlast]
      rfl
    | v :: rest2 =>
      have hlast2 : (v :: rest2).getLast? = some w := by
        rw [← hlast]
        exact (List.getLast?_append_of_ne_nil [u] (by simp)).symm
      have hjoin : joinSpace (u :: v :: rest2) = u ++ ' ' :: joinSpace (v :: rest2) := rfl
      rw [hjoin, List.getLast?_append_of_ne_nil u (by simp)]
      have hne : joinSpace (v :: rest2) ≠ [] :=
        joinSpace_ne_nil _ (by simp) (fun x hx => hall x (by simp [hx]))
      rw [show (' ' :: joinSpace (v :: rest2)) = [' '] ++ joinSpace (v :: rest2) from rfl,
        List.getLast?_append_of_ne_nil [' '] hne]
      exact ih w (fun x hx => hall x (by simp [hx])) hlast2

theorem pyStrip_joinSpace (ws : List (List Char)) (h : ∀ w ∈ ws, StrippedWord w) :
    pyStrip (joinSpace ws) = joinSpace ws := by
  match ws with
  | [] => rfl
  | w :: rest =>
    have hw := h w (by simp)
    apply pyStrip_eq_self
    · intro c hc
      rw [joinSpace_head? w rest hw.1] at hc
      exact hw.2.1 c hc
    · intro c hc
      have hne : (w :: rest) ≠ ([] : List (List Char)) := by simp
      have hlast := List.getLast?_eq_getLast (w :: rest) hne
      have hmem : (w :: rest).getLast hne ∈ w :: rest := List.getLast_mem hne
      have hu := h _ hmem
      rw [joinSpace_getLast? (w :: rest) _ (fun x hx => (h x hx).1) hlast] at hc
      exact hu.2.2 c hc

theorem smart_join_stripped (parts : List (List Char)) :
    pyStrip (smart_join parts) = smart_join parts := by
  unfold smart_join
  apply pyStrip_joinSpace
  intro w hw
  rw [List.mem_filter] at hw
  have hne : w ≠ [] := by simpa using hw.2
  have hmem := hw.1
  rw [List.mem_map] at hmem
  obtain ⟨x, _, hx⟩ := hmem
  exact strippedWord_pyStrip ⟨x, hx.symm⟩ hne

theorem filter_head?_eq_find? (p : List Char → Bool) :
    ∀ (l : List (List Char)), (l.filter p).head? = l.find? p := by
  intro l
  induction l with
  | nil => rfl
  | cons a l ih =>
    rw [List.filter_cons, List.find?_cons]
    by_cases hp : p a
    · simp [hp]
    · simp only [hp, Bool.false_eq_true, if_neg, ite_false, cond_false]
      exact ih

theorem generate_description_le (cd b l cn : List Char) :
    (generate_description cd b l cn).length ≤ 155 := by
  unfold generate_description
  simp only []
  split
  · next cand heq =>
    split at heq
    · split at heq
      · split at heq
        · simp only [Option.some.injEq] at heq
          rw [← heq]
          exact trim_to_limit_length_le _ _
        · simp at heq
      · simp at heq
    · simp at heq
  · exact trim_to_limit_length_le _ _

theorem sentence_case_eq_capFirst (t : List Char) :
    sentence_case t = capFirst (pyStrip t) := by
  unfold sentence_case capFirst
  cases pyStrip t <;> rfl

theorem sentCase_append (b cl : List Char) (hb : pyStrip b = b)
    (hcl : capFirst cl = cl) : sentence_case b ++ cl = capFirst (b ++ cl) := by
  rw [sentence_case_eq_capFirst, hb]
  cases b with
  | nil => simpa using hcl.symm
  | cons c r => rfl

theorem generate_description_eq_claim (cd b l cn : List Char) :
    generate_description cd b l cn = genDescriptionClaim cd b l cn := by
  have hfs : (descSentences cd).head? =
      ((splitRuns cd).map pyStrip).find? (fun s => s ≠ []) := by
    unfold descSentences
    exact filter_head?_eq_find? _ _
  unfold generate_description genDescriptionClaim
  simp only [hfs]
  by_cases hcd : cd ≠ []
  · rw [if_pos hcd]
    rw [if_pos hcd]
    cases hfind : ((splitRuns cd).map pyStrip).find? (fun s => s ≠ []) with
    | none =>
      simp only [hfind]
      split
      · rw [sentCase_append _ _ (smart_join_stripped _) (by decide)]
      · rw [sentCase_append _ _ (smart_join_stripped _) (by decide)]
    | some s0 =>
      have hmem := List.mem_of_find?_eq_some hfind
      rw [List.mem_map] at hmem
      obtain ⟨x, _, hx⟩ := hmem
      have hs0 : pyStrip s0 = s0 := by rw [← hx]; exact pyStrip_idem x
      have hsc : sentence_case s0 = capFirst s0 := by
        rw [sentence_case_eq_capFirst, hs0]
      simp only [hfind, hsc]
      by_cases hge : 120 ≤ (trim_to_limit (capFirst s0) TRIM_DESC_MAX).length
      · rw [if_pos hge]
        rw [if_pos hge]
      · rw [if_neg hge]
        rw [if_neg hge]
        simp only []
        split
        · rw [sentCase_append _ _ (smart_join_stripped _) (by decide)]
        · rw [sentCase_append _ _ (smart_join_stripped _) (by decide)]
  · rw [if_neg hcd]
    rw [if_neg hcd]
    simp only []
    split
    · rw [sentCase_append _ _ (smart_join_stripped _) (by decide)]
    · rw [sentCase_append _ _ (smart_join_stripped _) (by decide)]

/-- C4: the Description Generator agrees everywhere with the claim's
description — first non-empty stripped sentence when its capitalised,
155-trimmed form reaches 120 characters, else the capitalised, 155-trimmed
template — and its output never exceeds 155 characters. -/
theorem generate_description_correct :
    ∀ clean_details brand label category_name : List Char,
      generate_description clean_details brand label category_name =
        genDescriptionClaim clean_details brand label category_name ∧
      (generate_description clean_details brand label category_name).length ≤ 155 :=
  fun cd b l cn =>
    ⟨generate_description_eq_claim cd b l cn, generate_description_le cd b l cn⟩

theorem pickFrom_eq_find (l : List (List Char)) :
    pickFrom l = (match l.find? (fun x => 3 ≤ (pyStrip x).length) with
      | some x => pyLower (pyStrip x)
      | none => []) := by
  induction l with
  | nil => rfl
  | cons c rest ih =>
    by_cases hp : 3 ≤ (pyStrip c).length
    · have hc : c ≠ [] := by
        intro h
        subst h
        revert hp
        decide
      have hp' : decide (3 ≤ (pyStrip c).length) = true := by
        simpa using hp
      unfold pickFrom
      rw [if_pos ⟨hc, hp⟩, List.find?_cons]
      simp only [hp']
    · have hp' : decide (3 ≤ (pyStrip c).length) = false := by
        simpa using hp
      unfold pickFrom
      rw [if_neg (fun h => hp h.2), List.find?_cons]
      simp only [hp']
      exact ih

/-- C10: the Field Selector returns the first of subCategory, category,
mainCategory whose stripped length is at least 3 characters, lower-cased
and stripped, and the empty string when none qualifies. -/
theorem pick_product_type_correct :
    ∀ main_cat cat sub_cat : List Char,
      pick_product_type main_cat cat sub_cat = pickSpec main_cat cat sub_cat := by
  intro m c s
  unfold pick_product_type pickSpec
  exact pickFrom_eq_find [s, c, m]

theorem isSubstr_iff (n : List Char) :
    ∀ h : List Char, isSubstr n h = true ↔ n <:+: h := by
  intro h
  induction h with
  | nil =>
    unfold isSubstr
    constructor
    · intro he
      rw [List.isEmpty_iff] at he
      simp [he]
    · intro hi
      rw [List.isEmpty_iff]
      obtain ⟨s, t, hst⟩ := hi
      have := List.append_eq_nil.mp (List.append_eq_nil.mp hst).1
      exact this.2
  | cons c cs ih =>
    unfold isSubstr
    rw [Bool.or_eq_true, List.infix_cons_iff, ih]
    constructor
    · rintro (hp | hi)
      · exact Or.inl (List.isPrefixOf_iff_prefix.mp hp)
      · exact Or.inr hi
    · rintro (hp | hi)
      · exact Or.inl (List.isPrefixOf_iff_prefix.mpr hp)
      · exact Or.inr hi

theorem mem_infix_joinSpace {k : List Char} :
    ∀ {l : List (List Char)}, k ∈ l → k <:+: joinSpace l := by
  intro l
  induction l with
  | nil => intro h; simp at h
  | cons w ws ih =>
    intro h
    rw [List.mem_cons] at h
    match ws with
    | [] =>
      have : k = w := by simpa using h
      subst this
      exact List.infix_refl k
    | v :: rest =>
      have hjoin : joinSpace (w :: v :: rest) = w ++ ' ' :: joinSpace (v :: rest) := rfl
      rcases h with h | h
      · subst h
        rw [hjoin]
        exact (List.prefix_append k _).isInfix
      · have h1 : k <:+: joinSpace (v :: rest) := ih h
        have h2 : joinSpace (v :: rest) <:+: joinSpace (w :: v :: rest) := by
          rw [hjoin]
          exact ((List.suffix_cons ' ' _).trans (List.suffix_append _ _)).isInfix
        exact h1.trans h2

theorem isSubstr_join_of_mem {pt k : List Char} {l : List (List Char)}
    (hk : k ∈ l) (hin : isSubstr pt (pyLower k) = true) :
    isSubstr pt (pyLower (joinSpace l)) = true := by
  rw [isSubstr_iff] at hin ⊢
  exact hin.trans ((mem_infix_joinSpace hk).map Char.toLower)

/-- C5: the Keyword Generator emits at most 3 comma-space-joined phrases;
the product type is appended only when it is not a substring of any
already-collected keyword (lower-cased), and is left out when it is such a
substring; the extracted numeric attribute is appended only when it is not
a substring of any already-collected keyword (lower-cased), and is left out
when it is such a substring. -/
theorem generate_keywords_correct :
    ∀ brand label main_cat cat sub_cat details_text : List Char,
      (∃ lst : List (List Char), lst.length ≤ 3 ∧
        generate_keywords brand label main_cat cat sub_cat details_text =
          joinCommaSpace lst) ∧
      (kwsStage2 brand label main_cat cat sub_cat ≠ kwsStage1 brand label →
        ∀ k ∈ kwsStage1 brand label,
          isSubstr (pick_product_type main_cat cat sub_cat) (pyLower k) = false) ∧
      ((∃ k ∈ kwsStage1 brand label,
          isSubstr (pick_product_type main_cat cat sub_cat) (pyLower k) = true) →
        kwsStage2 brand label main_cat cat sub_cat = kwsStage1 brand label) ∧
      (∀ v, findAttr (pyLower label) = some v →
        (kwsStage3 brand label main_cat cat sub_cat ≠
            kwsStage2 brand label main_cat cat sub_cat →
          ∀ k ∈ kwsStage2 brand label main_cat cat sub_cat,
            isSubstr v (pyLower k) = false) ∧
        ((∃ k ∈ kwsStage2 brand label main_cat cat sub_cat,
            isSubstr v (pyLower k) = true) →
          kwsStage3 brand label main_cat cat sub_cat =
            kwsStage2 brand label main_cat cat sub_cat)) := by
  intro brand label main_cat cat sub_cat details_text
  refine ⟨⟨(kwsStage3 brand label main_cat cat sub_cat).take 3,
    List.length_take_le 3 _, rfl⟩, ?_, ?_, ?_⟩
  · intro hne k hk
    unfold kwsStage2 at hne
    by_cases hcond : pick_product_type main_cat cat sub_cat ≠ [] ∧
        ¬ isSubstr (pick_product_type main_cat cat sub_cat)
          (pyLower (joinSpace (kwsStage1 brand label))) = true
    · by_cases hsub : isSubstr (pick_product_type main_cat cat sub_cat) (pyLower k) = true
      · exact absurd (isSubstr_join_of_mem hk hsub) hcond.2
      · simpa using hsub
    · rw [if_neg hcond] at hne
      exact absurd rfl hne
  · rintro ⟨k, hk, hsub⟩
    unfold kwsStage2
    rw [if_neg]
    rintro ⟨_, hno⟩
    exact hno (isSubstr_join_of_mem hk hsub)
  · intro v hv
    constructor
    · intro hne k hk
      unfold kwsStage3 at hne
      rw [hv] at hne
      simp only [] at hne
      by_cases hguard : ¬ (kwsStage2 brand label main_cat cat sub_cat).any
          (fun k => isSubstr v (pyLower k)) = true
      · rw [List.any_eq_true] at hguard
        push_neg at hguard
        simpa using hguard k hk
      · rw [if_neg hguard] at hne
        exact absurd rfl hne
    · rintro ⟨k, hk, hsub⟩
      unfold kwsStage3
      rw [hv]
      simp only []
      rw [if_neg]
      intro hno
      rw [List.any_eq_true] at hno
      exact hno ⟨k, hk, by simpa using hsub⟩

/-- Witness for C5 at concrete inputs exercising each guard. -/
theorem generate_keywords_correct_witness :
    (∃ lst : List (List Char), lst.length ≤ 3 ∧
      generate_keywords "apple".toList "mouse".toList [] [] "telefon".toList [] =
        joinCommaSpace lst) ∧
    (∀ k ∈ kwsStage1 "apple".toList "mouse".toList,
      isSubstr (pick_product_type [] [] "telefon".toList) (pyLower k) = false) ∧
    kwsStage2 "apple".toList "telefon kılıfı".toList [] [] "telefon".toList =
      kwsStage1 "apple".toList "telefon kılıfı".toList ∧
    kwsStage3 "apple".toList "x 128 gb".toList [] [] "telefon".toList =
      kwsStage2 "apple".toList "x 128 gb".toList [] [] "telefon".toList := by
  refine ⟨(generate_keywords_correct "apple".toList "mouse".toList [] [] "telefon".toList []).1,
    (generate_keywords_correct "apple".toList "mouse".toList [] [] "telefon".toList []).2.1
      (by decide), ?_, ?_⟩
  · exact (generate_keywords_correct "apple".toList "telefon kılıfı".toList [] []
      "telefon".toList []).2.2.1 (by decide)
  · exact ((generate_keywords_correct "apple".toList "x 128 gb".toList [] []
      "telefon".toList []).2.2.2 "128 gb".toList (by decide)).2 (by decide)

/-- C2: a row's three metadata fields are generated and written only when
the stock code is numerically 0 and all three existing metadata fields are
empty; under any other condition the row is returned untouched, with no
partial fill. -/
theorem rowStep_frame :
    ∀ (llm_out : Option MetaResult) (r : Row),
      (¬ (r.rootProductStockCode = Cell.num 0 ∧ cellToStr r.title = [] ∧
          cellToStr r.description = [] ∧ cellToStr r.keywords = []) →
        rowStep llm_out r = r) ∧
      (r.rootProductStockCode = Cell.num 0 ∧ cellToStr r.title = [] ∧
          cellToStr r.description = [] ∧ cellToStr r.keywords = [] →
        ∃ t d k : List Char,
          rowStep llm_out r =
            { r with title := Cell.str t, description := Cell.str d,
                     keywords := Cell.str k }) := by
  intro llm_out r
  constructor
  · intro hnot
    unfold rowStep
    split
    · next heq =>
      rw [if_pos]
      by_cases ht : cellToStr r.title = []
      · by_cases hd : cellToStr r.description = []
        · by_cases hk : cellToStr r.keywords = []
          · exact absurd ⟨heq, ht, hd, hk⟩ hnot
          · exact Or.inr (Or.inr hk)
        · exact Or.inr (Or.inl hd)
      · exact Or.inl ht
    · rfl
  · rintro ⟨hroot, ht, hd, hk⟩
    unfold rowStep
    rw [hroot]
    simp only []
    rw [if_neg (by simp [ht, hd, hk])]
    split
    · exact ⟨_, _, _, rfl⟩
    · exact ⟨_, _, _, rfl⟩

/-- Witness for C2 at concrete rows: a non-root row is untouched, an
eligible empty row gets all three fields written. -/
theorem rowStep_frame_witness :
    rowStep none
      ⟨Cell.num 1, Cell.na, Cell.na, Cell.na, Cell.str "Samsung".toList,
        Cell.str "Galaxy S21".toList, Cell.str "Telefon".toList, Cell.na, Cell.na,
        Cell.na⟩ =
      ⟨Cell.num 1, Cell.na, Cell.na, Cell.na, Cell.str "Samsung".toList,
        Cell.str "Galaxy S21".toList, Cell.str "Telefon".toList, Cell.na, Cell.na,
        Cell.na⟩ ∧
    ∃ t d k : List Char,
      rowStep none
        ⟨Cell.num 0, Cell.na, Cell.na, Cell.na, Cell.str "Samsung".toList,
          Cell.str "Galaxy S21".toList, Cell.str "Telefon".toList, Cell.na, Cell.na,
          Cell.na⟩ =
        { rootProductStockCode := Cell.num 0, title := Cell.str t,
          description := Cell.str d, keywords := Cell.str k,
          brand := Cell.str "Samsung".toList, label := Cell.str "Galaxy S21".toList,
          mainCategory := Cell.str "Telefon".toList, category := Cell.na,
          subCategory := Cell.na, details := Cell.na } :=
  ⟨(rowStep_frame none _).1 (by decide),
   (rowStep_frame none _).2 ⟨rfl, rfl, rfl, rfl⟩⟩

/-- C6: every result the Enrichment Adapter returns other than `none`
passes the quality gate — title length between 45 and 60, description
length between 120 and 155, keywords non-empty — and when it returns
`none` the eligible empty row's three fields are all produced by the
rule-based generators. -/
theorem llm_gate_and_fallback :
    (∀ (resp : Option LlmPayload) (res : MetaResult),
      llm_generate_meta resp = some res →
        45 ≤ res.title.length ∧ res.title.length ≤ 60 ∧
        120 ≤ res.description.length ∧ res.description.length ≤ 155 ∧
        res.keywords ≠ []) ∧
    (∀ r : Row, r.rootProductStockCode = Cell.num 0 →
      cellToStr r.title = [] → cellToStr r.description = [] →
      cellToStr r.keywords = [] →
      rowStep none r =
        { r with
          title := Cell.str (generate_title (cellToStr r.brand) (cellToStr r.label)
            (cellToStr r.mainCategory) (cellToStr r.category)
            (cellToStr r.subCategory)),
          description := Cell.str (generate_description
            (clean_html (cellToStr r.details)) (cellToStr r.brand)
            (cellToStr r.label)
            (pyOrElse (cellToStr r.subCategory)
              (pyOrElse (cellToStr r.category) (cellToStr r.mainCategory)))),
          keywords := Cell.str (generate_keywords (cellToStr r.brand)
            (cellToStr r.label) (cellToStr r.mainCategory) (cellToStr r.category)
            (cellToStr r.subCategory) (clean_html (cellToStr r.details))) }) := by
  constructor
  · intro resp res h
    cases resp with
    | none => simp [llm_generate_meta] at h
    | some p =>
      unfold llm_generate_meta at h
      simp only [] at h
      split at h
      · simp at h
      · next hgate =>
        push_neg at hgate
        obtain ⟨h45, h120, hkw⟩ := hgate
        rw [Option.some.injEq] at h
        rw [← h]
        refine ⟨h45, trim_to_limit_length_le _ _, h120, trim_to_limit_length_le _ _, hkw⟩
  · intro r hroot ht hd hk
    unfold rowStep
    rw [hroot]
    simp only []
    rw [if_neg (by simp [ht, hd, hk])]
    simp

theorem generate_keywords_brand_only (brand : List Char) (hb : brand ≠ []) :
    generate_keywords brand [] [] [] [] [] = brand := by
  have h1 : kwsStage1 brand [] = [brand] := by
    unfold kwsStage1
    rw [if_neg (by simp)]
    rw [if_pos hb]
    simp
  have h2 : kwsStage2 brand [] [] [] [] = [brand] := by
    unfold kwsStage2
    rw [if_neg (by simp [pick_product_type, pickFrom])]
    exact h1
  have h3 : kwsStage3 brand [] [] [] [] = [brand] := by
    unfold kwsStage3
    have hattr : findAttr (pyLower []) = none := rfl
    rw [hattr]
    exact h2
  unfold generate_keywords
  rw [h3]
  rfl

/-- C7 counterexample: the claim's fixed keyword cap fails on the
rule-based path — a 201-character brand alone yields a keywords string of
201 characters, beyond the 200-character cap the adapter path applies. -/
theorem keywords_cap_counterexample :
    200 < (generate_keywords (List.replicate 201 'a') [] [] [] [] []).length := by
  have hb : List.replicate 201 'a' ≠ [] := by
    intro h
    have := congrArg List.length h
    rw [List.length_replicate] at this
    simp at this
  rw [generate_keywords_brand_only (List.replicate 201 'a') hb]
  rw [List.length_replicate]
  omega

/-- C7 (amended): the title is at most 60 characters and the description at
most 155 in both paths; the Enrichment Adapter's keywords string is capped
at 200 characters when the payload's keywords field is an array; the
rule-based keywords string is bounded by no fixed cap. -/
theorem meta_bounds_amended :
    (∀ brand label main_cat cat sub_cat : List Char,
      (generate_title brand label main_cat cat sub_cat).length ≤ 60) ∧
    (∀ clean_details brand label category_name : List Char,
      (generate_description clean_details brand label category_name).length ≤ 155) ∧
    (∀ (resp : Option LlmPayload) (res : MetaResult),
      llm_generate_meta resp = some res →
        res.title.length ≤ 60 ∧ res.description.length ≤ 155 ∧
        (∀ p, resp = some p → (∃ ks, p.keywords = KwField.arr ks) →
          res.keywords.length ≤ 200)) ∧
    (∀ N : Nat, ∃ brand : List Char,
      N < (generate_keywords brand [] [] [] [] []).length) := by
  refine ⟨generate_title_le, generate_description_le, ?_, ?_⟩
  · intro resp res h
    cases resp with
    | none => simp [llm_generate_meta] at h
    | some p =>
      unfold llm_generate_meta at h
      simp only [] at h
      split at h
      · simp at h
      · rw [Option.some.injEq] at h
        rw [← h]
        refine ⟨trim_to_limit_length_le _ _, trim_to_limit_length_le _ _, ?_⟩
        rintro q hq ⟨ks, hks⟩
        rw [Option.some.injEq] at hq
        subst hq
        rw [hks]
        simp only []
        exact le_trans (List.length_take_le 200 _) (le_refl 200)
  · intro N
    refine ⟨List.replicate (N + 1) 'a', ?_⟩
    have hb : List.replicate (N + 1) 'a' ≠ [] := by
      intro h
      have := congrArg List.length h
      rw [List.length_replicate] at this
      simp at this
    rw [generate_keywords_brand_only (List.replicate (N + 1) 'a') hb]
    rw [List.length_replicate]
    omega

/-- A sample parsed LLM payload that passes the quality gate. -/
def llmPayloadEx : LlmPayload :=
  ⟨List.replicate 50 'a', List.replicate 130 'b', KwField.arr [['k']]⟩

/-- The result `llm_generate_meta` produces for `llmPayloadEx`. -/
def llmResEx : MetaResult :=
  ⟨List.replicate 50 'a', List.replicate 130 'b', ['k']⟩

/-- Witness for C7 (amended) at concrete inputs. -/
theorem meta_bounds_amended_witness :
    (generate_title "Apple".toList "iPhone".toList [] [] "telefon".toList).length ≤ 60 ∧
    (generate_description [] "Apple".toList "iPhone".toList "telefon".toList).length ≤ 155 ∧
    (llmResEx.title.length ≤ 60 ∧ llmResEx.description.length ≤ 155 ∧
      llmResEx.keywords.length ≤ 200) ∧
    (∃ brand : List Char, 200 < (generate_keywords brand [] [] [] [] []).length) := by
  refine ⟨meta_bounds_amended.1 "Apple".toList "iPhone".toList [] [] "telefon".toList,
    meta_bounds_amended.2.1 [] "Apple".toList "iPhone".toList "telefon".toList, ?_,
    meta_bounds_amended.2.2.2 200⟩
  obtain ⟨h1, h2, h3⟩ :=
    meta_bounds_amended.2.2.1 (some llmPayloadEx) llmResEx (by decide)
  exact ⟨h1, h2, h3 llmPayloadEx rfl ⟨[['k']], rfl⟩⟩

theorem noMidWordCut_self (t : List Char) : noMidWordCut t t = true := by
  unfold noMidWordCut
  rw [List.drop_length]
  simp [List.isPrefixOf_iff_prefix]

theorem pyRstrip_decomp (cut l : List Char) :
    ∃ rem, l = pyRstrip cut l ++ rem ∧ ∀ c ∈ rem, cut.contains c = true := by
  refine ⟨(l.reverse.takeWhile (fun c => cut.contains c)).reverse, ?_, ?_⟩
  · unfold pyRstrip
    rw [← List.reverse_append, List.takeWhile_append_dropWhile, List.reverse_reverse]
  · intro c hc
    rw [List.mem_reverse] at hc
    exact List.mem_takeWhile_imp hc

theorem lastSpaceIdx_decomp :
    ∀ {l : List Char} {i : Nat}, lastSpaceIdx l = some i →
      ∃ rest, l.drop i = ' ' :: rest := by
  intro l
  induction l with
  | nil => intro i h; simp [lastSpaceIdx] at h
  | cons c cs ih =>
    intro i h
    unfold lastSpaceIdx at h
    cases hr : lastSpaceIdx cs with
    | some j =>
      rw [hr] at h
      simp only [Option.some.injEq] at h
      obtain ⟨rest, hrest⟩ := ih hr
      exact ⟨rest, by rw [← h]; simpa using hrest⟩
    | none =>
      rw [hr] at h
      by_cases hc : c = ' '
      · simp only [if_pos hc, Option.some.injEq] at h
        subst hc
        exact ⟨cs, by rw [← h]; rfl⟩
      · simp [if_neg hc] at h

theorem lastSpaceIdx_isSome_of_mem :
    ∀ {l : List Char}, ' ' ∈ l → lastSpaceIdx l ≠ none := by
  intro l
  induction l with
  | nil => intro h; simp at h
  | cons c cs ih =>
    intro h hnone
    unfold lastSpaceIdx at hnone
    cases hr : lastSpaceIdx cs with
    | some j => rw [hr] at hnone; simp at hnone
    | none =>
      rw [hr] at hnone
      rw [List.mem_cons] at h
      rcases h with h | h
      · rw [if_pos h.symm] at hnone
        simp at hnone
      · exact absurd hr (ih h)

theorem trim_no_midword (text : List Char) (budget : Nat)
    (hsp : ' ' ∈ (pyStrip text).take (budget + 1)) :
    noMidWordCut (pyStrip text) (trim_to_limit text budget) = true := by
  unfold trim_to_limit
  simp only []
  by_cases hfit : (pyStrip text).length ≤ budget
  · rw [if_pos hfit]
    exact noMidWordCut_self _
  · rw [if_neg hfit]
    cases hidx : lastSpaceIdx ((pyStrip text).take (budget + 1)) with
    | none => exact absurd hidx (lastSpaceIdx_isSome_of_mem hsp)
    | some i =>
      have hi : i < ((pyStrip text).take (budget + 1)).length := lastSpaceIdx_lt hidx
      have hi' : i ≤ ((pyStrip text).take (budget + 1)).length := le_of_lt hi
      obtain ⟨rest, hrest⟩ := lastSpaceIdx_decomp hidx
      have hdrop : (pyStrip text).drop i =
          ' ' :: (rest ++ (pyStrip text).drop (budget + 1)) := by
        have h2 : ((pyStrip text).take (budget + 1) ++
            (pyStrip text).drop (budget + 1)).drop i =
            ((pyStrip text).take (budget + 1)).drop i ++
              (pyStrip text).drop (budget + 1) :=
          List.drop_append_of_le_length hi'
        rw [List.take_append_drop] at h2
        rw [h2, hrest]
        rfl
      obtain ⟨rem, hrem, hremP⟩ := pyRstrip_decomp trimPunct ((pyStrip text).take i)
      set out := pyRstrip trimPunct ((pyStrip text).take i) with hout
      have htt : pyStrip text = out ++
          (rem ++ ' ' :: (rest ++ (pyStrip text).drop (budget + 1))) := by
        have h0 : pyStrip text = (pyStrip text).take i ++ (pyStrip text).drop i :=
          (List.take_append_drop i (pyStrip text)).symm
        nth_rewrite 1 [h0]
        rw [hrem, hdrop]
        simp [List.append_assoc]
      unfold noMidWordCut
      rw [Bool.or_eq_true, Bool.and_eq_true]
      refine Or.inr ⟨?_, ?_⟩
      · rw [List.isPrefixOf_iff_prefix]
        exact ⟨_, htt.symm⟩
      · have hdrop2 : (pyStrip text).drop out.length =
            rem ++ ' ' :: (rest ++ (pyStrip text).drop (budget + 1)) := by
          conv_lhs => rw [htt]
          exact List.drop_left _ _
        rw [hdrop2]
        cases rem with
        | nil =>
          show trimPunct.contains ' ' = true
          decide
        | cons c rem2 =>
          have := hremP c (by simp)
          simpa using this

/-- C9 counterexample: for the input `" abcde"` with budget 3 the first
budget+1 characters of the raw input contain a space, yet the output
`"abc"` ends in the middle of the word `"abcde"`. -/
theorem trim_word_boundary_counterexample :
    ' ' ∈ " abcde".toList.take (3 + 1) ∧
    trim_to_limit " abcde".toList 3 = "abc".toList ∧
    noMidWordCut (pyStrip " abcde".toList) (trim_to_limit " abcde".toList 3) =
      false := by
  decide

/-- C9 (amended): when the *stripped* input's first budget+1 characters
contain a space, the Budget Trimmer's output never ends in the middle of a
word of the stripped input; and trimming `"abcdef ghijk"` to budget 8
yields `"abcdef"`. -/
theorem trim_word_boundary_amended :
    (∀ (text : List Char) (budget : Nat),
      ' ' ∈ (pyStrip text).take (budget + 1) →
      noMidWordCut (pyStrip text) (trim_to_limit text budget) = true) ∧
    trim_to_limit "abcdef ghijk".toList 8 = "abcdef".toList :=
  ⟨trim_no_midword, by decide⟩

/-- Witness for C9 (amended) at a concrete input. -/
theorem trim_word_boundary_witness :
    noMidWordCut (pyStrip "abcdef ghijk".toList)
      (trim_to_limit "abcdef ghijk".toList 8) = true :=
  trim_word_boundary_amended.1 "abcdef ghijk".toList 8 (by decide)

theorem pyWordsAux_stab :
    ∀ (fuel : Nat) (l : List Char), l.length ≤ fuel →
      pyWordsAux (fuel + 1) l = pyWordsAux fuel l := by
  intro fuel
  induction fuel with
  | zero =>
    intro l h
    have : l = [] := List.length_eq_zero.mp (Nat.le_zero.mp h)
    subst this
    rfl
  | succ fuel ih =>
    intro l h
    cases l with
    | nil => rfl
    | cons c cs =>
      show pyWordsAux (fuel + 1 + 1) (c :: cs) = pyWordsAux (fuel + 1) (c :: cs)
      unfold pyWordsAux
      cases hc : pySpace c with
      | true =>
        simp only [hc, ite_true]
        exact ih cs (by simp only [List.length_cons] at h; omega)
      | false =>
        simp only [hc, Bool.false_eq_true, ite_false]
        congr 1
        have hlen : (cs.dropWhile (fun x => !pySpace x)).length ≤ fuel := by
          have := dropWhile_length_le (fun x => !pySpace x) cs
          simp only [List.length_cons] at h
          omega
        exact ih _ hlen

theorem pyWordsAux_eq_pyWords :
    ∀ (fuel : Nat) (l : List Char), l.length ≤ fuel → pyWordsAux fuel l = pyWords l := by
  intro fuel l h
  unfold pyWords
  obtain ⟨k, rfl⟩ : ∃ k, fuel = l.length + k := ⟨fuel - l.length, by omega⟩
  clear h
  induction k with
  | zero => rfl
  | succ k ih =>
    rw [show l.length + (k + 1) = (l.length + k) + 1 from rfl]
    rw [pyWordsAux_stab (l.length + k) l (by omega)]
    exact ih

theorem pyWords_cons (c : Char) (cs : List Char) :
    pyWords (c :: cs) = if pySpace c then pyWords cs
      else (c :: cs.takeWhile (fun x => !pySpace x)) ::
        pyWords (cs.dropWhile (fun x => !pySpace x)) := by
  show pyWordsAux (cs.length + 1) (c :: cs) = _
  unfold pyWordsAux
  cases hc : pySpace c with
  | true =>
    simp only [hc, ite_true]
    exact pyWordsAux_eq_pyWords cs.length cs (le_refl _)
  | false =>
    simp only [hc, Bool.false_eq_true, ite_false]
    congr 1
    exact pyWordsAux_eq_pyWords _ _ (dropWhile_length_le _ _)

theorem pyWords_good :
    ∀ (n : Nat) (l : List Char), l.length ≤ n → ∀ w ∈ pyWords l,
      w ≠ [] ∧ ∀ c ∈ w, pySpace c = false := by
  intro n
  induction n with
  | zero =>
    intro l h w hw
    have : l = [] := List.length_eq_zero.mp (Nat.le_zero.mp h)
    subst this
    simp [show pyWords [] = [] from rfl] at hw
  | succ n ih =>
    intro l h w hw
    cases l with
    | nil => simp [show pyWords [] = [] from rfl] at hw
    | cons c cs =>
      rw [pyWords_cons] at hw
      cases hc : pySpace c with
      | true =>
        rw [hc, if_pos rfl] at hw
        exact ih cs (by simp only [List.length_cons] at h; omega) w hw
      | false =>
        rw [hc] at hw
        simp only [Bool.false_eq_true, ite_false] at hw
        rw [List.mem_cons] at hw
        rcases hw with hw | hw
        · subst hw
          refine ⟨by simp, ?_⟩
          intro x hx
          rw [List.mem_cons] at hx
          rcases hx with hx | hx
          · subst hx; exact hc
          · have := List.mem_takeWhile_imp hx
            simpa using this
        · have hlen : (cs.dropWhile (fun x => !pySpace x)).length ≤ n := by
            have := dropWhile_length_le (fun x => !pySpace x) cs
            simp only [List.length_cons] at h
            omega
          exact ih _ hlen w hw

theorem pyWords_chars :
    ∀ (n : Nat) (l : List Char), l.length ≤ n → ∀ w ∈ pyWords l, ∀ c ∈ w, c ∈ l := by
  intro n
  induction n with
  | zero =>
    intro l h w hw
    have : l = [] := List.length_eq_zero.mp (Nat.le_zero.mp h)
    subst this
    simp [show pyWords [] = [] from rfl] at hw
  | succ n ih =>
    intro l h w hw c hc
    cases l with
    | nil => simp [show pyWords [] = [] from rfl] at hw
    | cons a cs =>
      rw [pyWords_cons] at hw
      cases ha : pySpace a with
      | true =>
        rw [ha, if_pos rfl] at hw
        exact List.mem_cons_of_mem a
          (ih cs (by simp only [List.length_cons] at h; omega) w hw c hc)
      | false =>
        rw [ha] at hw
        simp only [Bool.false_eq_true, ite_false] at hw
        rw [List.mem_cons] at hw
        rcases hw with hw | hw
        · subst hw
          rw [List.mem_cons] at hc
          rcases hc with hc | hc
          · rw [hc]; exact List.mem_cons_self _ _
          · exact List.mem_cons_of_mem a ((List.takeWhile_sublist _).subset hc)
        · have hlen : (cs.dropWhile (fun x => !pySpace x)).length ≤ n := by
            have := dropWhile_length_le (fun x => !pySpace x) cs
            simp only [List.length_cons] at h
            omega
          exact List.mem_cons_of_mem a
            ((List.dropWhile_sublist _).subset (ih _ hlen w hw c hc))

theorem takeWhile_append_of_all (p : Char → Bool) :
    ∀ (a b : List Char), (∀ x ∈ a, p x = true) →
      (a ++ b).takeWhile p = a ++ b.takeWhile p := by
  intro a
  induction a with
  | nil => intro b _; rfl
  | cons x xs ih =>
    intro b hall
    rw [List.cons_append, List.takeWhile_cons, if_pos (hall x (by simp))]
    rw [ih b (fun y hy => hall y (List.mem_cons_of_mem x hy))]
    rfl

theorem dropWhile_append_of_all (p : Char → Bool) :
    ∀ (a b : List Char), (∀ x ∈ a, p x = true) →
      (a ++ b).dropWhile p = b.dropWhile p := by
  intro a
  induction a with
  | nil => intro b _; rfl
  | cons x xs ih =>
    intro b hall
    rw [List.cons_append, List.dropWhile_cons, if_pos (hall x (by simp))]
    exact ih b (fun y hy => hall y (List.mem_cons_of_mem x hy))

theorem takeWhile_all_eq (p : Char → Bool) :
    ∀ (l : List Char), (∀ x ∈ l, p x = true) → l.takeWhile p = l := by
  intro l
  induction l with
  | nil => intro _; rfl
  | cons x xs ih =>
    intro hall
    rw [List.takeWhile_cons, if_pos (hall x (by simp))]
    rw [ih (fun y hy => hall y (List.mem_cons_of_mem x hy))]

theorem dropWhile_all_eq (p : Char → Bool) :
    ∀ (l : List Char), (∀ x ∈ l, p x = true) → l.dropWhile p = [] := by
  intro l
  induction l with
  | nil => intro _; rfl
  | cons x xs ih =>
    intro hall
    rw [List.dropWhile_cons, if_pos (hall x (by simp))]
    exact ih (fun y hy => hall y (List.mem_cons_of_mem x hy))

theorem pyWords_good_single {w : List Char} (hne : w ≠ [])
    (hns : ∀ c ∈ w, pySpace c = false) : pyWords w = [w] := by
  cases w with
  | nil => exact absurd rfl hne
  | cons c cs =>
    rw [pyWords_cons]
    rw [if_neg (by simp [hns c (by simp)])]
    have hall : ∀ x ∈ cs, (!pySpace x) = true := by
      intro x hx
      simp [hns x (List.mem_cons_of_mem c hx)]
    rw [takeWhile_all_eq _ cs hall, dropWhile_all_eq _ cs hall]
    rfl

theorem pyWords_word_append {w t : List Char} (hne : w ≠ [])
    (hns : ∀ c ∈ w, pySpace c = false) :
    pyWords (w ++ ' ' :: t) = w :: pyWords t := by
  cases w with
  | nil => exact absurd rfl hne
  | cons c cs =>
    rw [List.cons_append, pyWords_cons]
    rw [if_neg (by simp [hns c (by simp)])]
    have hall : ∀ x ∈ cs, (!pySpace x) = true := by
      intro x hx
      simp [hns x (List.mem_cons_of_mem c hx)]
    rw [takeWhile_append_of_all _ cs (' ' :: t) hall]
    rw [dropWhile_append_of_all _ cs (' ' :: t) hall]
    have h1 : (' ' :: t).takeWhile (fun x => !pySpace x) = [] := by
      rw [List.takeWhile_cons]
      simp [pySpace]
    have h2 : (' ' :: t).dropWhile (fun x => !pySpace x) = ' ' :: t := by
      rw [List.dropWhile_cons]
      simp [pySpace]
    rw [h1, h2, List.append_nil]
    congr 1

theorem pyWords_joinSpace :
    ∀ (ws : List (List Char)),
      (∀ w ∈ ws, w ≠ [] ∧ ∀ c ∈ w, pySpace c = false) →
      pyWords (joinSpace ws) = ws := by
  intro ws
  induction ws with
  | nil => intro _; rfl
  | cons w rest ih =>
    intro h
    cases rest with
    | nil =>
      show pyWords (joinSpace [w]) = [w]
      exact pyWords_good_single (h w (by simp)).1 (h w (by simp)).2
    | cons v rest2 =>
      show pyWords (w ++ ' ' :: joinSpace (v :: rest2)) = w :: v :: rest2
      rw [pyWords_word_append (h w (by simp)).1 (h w (by simp)).2]
      congr 1
      exact ih (fun u hu => h u (List.mem_cons_of_mem w hu))

theorem mem_joinSpace :
    ∀ (ws : List (List Char)) (c : Char), c ∈ joinSpace ws →
      (∃ w ∈ ws, c ∈ w) ∨ c = ' ' := by
  intro ws
  induction ws with
  | nil => intro c h; simp [joinSpace] at h
  | cons w rest ih =>
    intro c h
    cases rest with
    | nil => exact Or.inl ⟨w, by simp, h⟩
    | cons v rest2 =>
      have h2 : c ∈ w ++ ' ' :: joinSpace (v :: rest2) := h
      rw [List.mem_append] at h2
      rcases h2 with hw | hr
      · exact Or.inl ⟨w, by simp, hw⟩
      · rw [List.mem_cons] at hr
        rcases hr with hr | hr
        · exact Or.inr hr
        · rcases ih c hr with ⟨u, hu, hc⟩ | hsp
          · exact Or.inl ⟨u, List.mem_cons_of_mem w hu, hc⟩
          · exact Or.inr hsp

theorem stripTagsAux_id :
    ∀ (fuel : Nat) (l : List Char), l.length ≤ fuel → '<' ∉ l →
      stripTagsAux fuel l = l := by
  intro fuel
  induction fuel with
  | zero =>
    intro l h _
    have : l = [] := List.length_eq_zero.mp (Nat.le_zero.mp h)
    subst this
    rfl
  | succ fuel ih =>
    intro l h hmem
    cases l with
    | nil => rfl
    | cons c cs =>
      show stripTagsAux (fuel + 1) (c :: cs) = c :: cs
      unfold stripTagsAux
      rw [if_neg (fun hc => hmem (by rw [← hc]; exact List.mem_cons_self c cs))]
      congr 1
      exact ih cs (by simp only [List.length_cons] at h; omega)
        (fun hx => hmem (List.mem_cons_of_mem c hx))

theorem stripTags_id {l : List Char} (h : '<' ∉ l) : stripTags l = l :=
  stripTagsAux_id l.length l (le_refl _) h

theorem pyUnescapeAux_id :
    ∀ (fuel : Nat) (l : List Char), l.length ≤ fuel → '&' ∉ l →
      pyUnescapeAux fuel l = l := by
  intro fuel
  induction fuel with
  | zero =>
    intro l h _
    have : l = [] := List.length_eq_zero.mp (Nat.le_zero.mp h)
    subst this
    rfl
  | succ fuel ih =>
    intro l h hmem
    cases l with
    | nil => rfl
    | cons c cs =>
      show pyUnescapeAux (fuel + 1) (c :: cs) = c :: cs
      unfold pyUnescapeAux
      rw [if_neg (fun hc => hmem (by rw [← hc]; exact List.mem_cons_self c cs))]
      congr 1
      exact ih cs (by simp only [List.length_cons] at h; omega)
        (fun hx => hmem (List.mem_cons_of_mem c hx))

theorem findGt_decomp :
    ∀ {l b a : List Char}, findGt l = some (b, a) → l = b ++ '>' :: a ∧ '>' ∉ b := by
  intro l
  induction l with
  | nil => intro b a h; simp [findGt] at h
  | cons c cs ih =>
    intro b a h
    by_cases hc : c = '>'
    · simp only [findGt, if_pos hc, Option.some.injEq, Prod.mk.injEq] at h
      subst hc
      rw [← h.1, ← h.2]
      simp
    · simp only [findGt, if_neg hc, Option.map_eq_some'] at h
      obtain ⟨⟨b1, a1⟩, hp, hpe⟩ := h
      have hb : c :: b1 = b := (Prod.mk.injEq _ _ _ _ ▸ hpe).1
      have ha : a1 = a := (Prod.mk.injEq _ _ _ _ ▸ hpe).2
      obtain ⟨h1, h2⟩ := ih hp
      subst ha
      rw [← hb]
      constructor
      · rw [List.cons_append, h1]
      · intro hmem
        rw [List.mem_cons] at hmem
        rcases hmem with hmem | hmem
        · exact hc hmem.symm
        · exact h2 hmem

theorem findGt_none_not_mem :
    ∀ {l : List Char}, findGt l = none → '>' ∉ l := by
  intro l
  induction l with
  | nil => intro _ h; simp at h
  | cons c cs ih =>
    intro h hmem
    by_cases hc : c = '>'
    · simp [findGt, hc] at h
    · simp only [findGt, if_neg hc, Option.map_eq_none'] at h
      rw [List.mem_cons] at hmem
      rcases hmem with hmem | hmem
      · exact hc hmem.symm
      · exact ih h hmem

theorem findGt_none_of_not_mem {l : List Char} (h : '>' ∉ l) : findGt l = none := by
  cases hf : findGt l with
  | none => rfl
  | some p =>
    cases p with
    | mk b a =>
      obtain ⟨h1, _⟩ := findGt_decomp hf
      exact absurd (by rw [h1]; simp) h

theorem stripTagsAux_stab :
    ∀ (fuel : Nat) (l : List Char), l.length ≤ fuel →
      stripTagsAux (fuel + 1) l = stripTagsAux fuel l := by
  intro fuel
  induction fuel with
  | zero =>
    intro l h
    have : l = [] := List.length_eq_zero.mp (Nat.le_zero.mp h)
    subst this
    rfl
  | succ fuel ih =>
    intro l h
    cases l with
    | nil => rfl
    | cons c cs =>
      show stripTagsAux (fuel + 1 + 1) (c :: cs) = stripTagsAux (fuel + 1) (c :: cs)
      unfold stripTagsAux
      by_cases hc : c = '<'
      · rw [if_pos hc, if_pos hc]
        cases hf : findGt cs with
        | none =>
          simp only [hf]
          congr 1
          exact ih cs (by simp only [List.length_cons] at h; omega)
        | some p =>
          cases p with
          | mk b a =>
            simp only [hf]
            by_cases hb : b = []
            · rw [if_pos hb, if_pos hb]
              congr 1
              exact ih cs (by simp only [List.length_cons] at h; omega)
            · rw [if_neg hb, if_neg hb]
              have := findGt_snd_length hf
              exact ih a (by simp only [List.length_cons] at h; omega)
      · rw [if_neg hc, if_neg hc]
        congr 1
        exact ih cs (by simp only [List.length_cons] at h; omega)

theorem stripTagsAux_eq_stripTags :
    ∀ (fuel : Nat) (l : List Char), l.length ≤ fuel →
      stripTagsAux fuel l = stripTags l := by
  intro fuel l h
  unfold stripTags
  obtain ⟨k, rfl⟩ : ∃ k, fuel = l.length + k := ⟨fuel - l.length, by omega⟩
  clear h
  induction k with
  | zero => rfl
  | succ k ih =>
    rw [show l.length + (k + 1) = (l.length + k) + 1 from rfl]
    rw [stripTagsAux_stab (l.length + k) l (by omega)]
    exact ih

theorem stripTags_cons (c : Char) (cs : List Char) :
    stripTags (c :: cs) =
      if c = '<' then
        match findGt cs with
        | some (before, after) =>
          if before = [] then '<' :: stripTags cs else stripTags after
        | none => '<' :: stripTags cs
      else c :: stripTags cs := by
  show stripTagsAux (cs.length + 1) (c :: cs) = _
  unfold stripTagsAux
  by_cases hc : c = '<'
  · rw [if_pos hc, if_pos hc]
    cases hf : findGt cs with
    | none =>
      simp only [hf]
      rfl
    | some p =>
      cases p with
      | mk b a =>
        simp only [hf]
        by_cases hb : b = []
        · rw [if_pos hb, if_pos hb]
          rfl
        · rw [if_neg hb, if_neg hb]
          exact stripTagsAux_eq_stripTags cs.length a (le_of_lt (findGt_snd_length hf))
  · rw [if_neg hc, if_neg hc]
    rfl

/-- States of a left-to-right scan deciding whether `TAG_RE` has a match:
`normal` outside any candidate, `opened` right after a `'<'`, `banned` when
a `'<'` was followed by a non-`'>'` character (any later `'>'` would close
a match), `dead` when a match exists. -/
inductive TfState where
  | normal : TfState
  | opened : TfState
  | banned : TfState
  | dead : TfState
deriving DecidableEq

def tfStep : TfState → Char → TfState
  | TfState.normal, c => if c = '<' then TfState.opened else TfState.normal
  | TfState.opened, c => if c = '>' then TfState.normal else TfState.banned
  | TfState.banned, c => if c = '>' then TfState.dead else TfState.banned
  | TfState.dead, _ => TfState.dead

/-- Run the match-detecting scan over a string. -/
def tfRun (s : TfState) (l : List Char) : TfState :=
  l.foldl tfStep s

theorem tfRun_cons (s : TfState) (c : Char) (cs : List Char) :
    tfRun s (c :: cs) = tfRun (tfStep s c) cs := rfl

theorem tfRun_append (s : TfState) (a b : List Char) :
    tfRun s (a ++ b) = tfRun (tfRun s a) b :=
  List.foldl_append tfStep s a b

theorem tfRun_dead (l : List Char) : tfRun TfState.dead l = TfState.dead := by
  induction l with
  | nil => rfl
  | cons c cs ih =>
    rw [tfRun_cons]
    exact ih

theorem tfStep_ne_dead {s : TfState} {c : Char} (hs : s ≠ TfState.dead)
    (hc : c ≠ '>') : tfStep s c ≠ TfState.dead := by
  cases s with
  | normal => by_cases h : c = '<' <;> simp [tfStep, h]
  | opened => simp [tfStep, hc]
  | banned => simp [tfStep, hc]
  | dead => exact absurd rfl hs

theorem tfRun_no_gt :
    ∀ (l : List Char) (s : TfState), '>' ∉ l → s ≠ TfState.dead →
      tfRun s l ≠ TfState.dead := by
  intro l
  induction l with
  | nil => intro s _ hs; exact hs
  | cons c cs ih =>
    intro s hg hs
    rw [tfRun_cons]
    have hc : c ≠ '>' := fun h => hg (by rw [← h]; exact List.mem_cons_self c cs)
    exact ih _ (fun h => hg (List.mem_cons_of_mem c h)) (tfStep_ne_dead hs hc)

theorem tfRun_banned_stay :
    ∀ (l : List Char), '>' ∉ l → tfRun TfState.banned l = TfState.banned := by
  intro l
  induction l with
  | nil => intro _; rfl
  | cons c cs ih =>
    intro hg
    rw [tfRun_cons]
    have hc : c ≠ '>' := fun h => hg (by rw [← h]; exact List.mem_cons_self c cs)
    rw [show tfStep TfState.banned c = TfState.banned by simp [tfStep, hc]]
    exact ih (fun h => hg (List.mem_cons_of_mem c h))

theorem tfRun_banned_no_gt :
    ∀ (l : List Char), tfRun TfState.banned l ≠ TfState.dead → '>' ∉ l := by
  intro l
  induction l with
  | nil => intro _ h; simp at h
  | cons c cs ih =>
    intro hrun hmem
    rw [tfRun_cons] at hrun
    by_cases hc : c = '>'
    · rw [show tfStep TfState.banned c = TfState.dead by simp [tfStep, hc]] at hrun
      exact hrun (tfRun_dead cs)
    · rw [show tfStep TfState.banned c = TfState.banned by simp [tfStep, hc]] at hrun
      rw [List.mem_cons] at hmem
      rcases hmem with hmem | hmem
      · exact hc hmem.symm
      · exact ih hrun hmem

theorem ws_not_special {d : Char} (h : pySpace d = true) : d ≠ '<' ∧ d ≠ '>' := by
  unfold pySpace at h
  simp only [Bool.or_eq_true, beq_iff_eq] at h
  rcases h with (((((h | h) | h) | h) | h) | h) <;> subst h <;> exact ⟨by decide, by decide⟩

theorem stripTags_no_gt_aux :
    ∀ (n : Nat) (l : List Char), l.length ≤ n → '>' ∉ l → stripTags l = l := by
  intro n
  induction n with
  | zero =>
    intro l h _
    have : l = [] := List.length_eq_zero.mp (Nat.le_zero.mp h)
    subst this
    rfl
  | succ n ih =>
    intro l h hg
    cases l with
    | nil => rfl
    | cons c cs =>
      rw [stripTags_cons]
      have hcs : '>' ∉ cs := fun hx => hg (List.mem_cons_of_mem c hx)
      by_cases hc : c = '<'
      · rw [if_pos hc, findGt_none_of_not_mem hcs]
        rw [ih cs (by simp only [List.length_cons] at h; omega) hcs, hc]
      · rw [if_neg hc]
        rw [ih cs (by simp only [List.length_cons] at h; omega) hcs]

theorem stripTags_eq_of_no_gt {l : List Char} (h : '>' ∉ l) : stripTags l = l :=
  stripTags_no_gt_aux l.length l (le_refl _) h

theorem stripTags_subset_aux :
    ∀ (n : Nat) (l : List Char), l.length ≤ n → ∀ c ∈ stripTags l, c ∈ l := by
  intro n
  induction n with
  | zero =>
    intro l h c hc
    have : l = [] := List.length_eq_zero.mp (Nat.le_zero.mp h)
    subst this
    simp [show stripTags [] = [] from rfl] at hc
  | succ n ih =>
    intro l h x hx
    cases l with
    | nil => simp [show stripTags [] = [] from rfl] at hx
    | cons c cs =>
      rw [stripTags_cons] at hx
      have hlen : cs.length ≤ n := by simp only [List.length_cons] at h; omega
      by_cases hc : c = '<'
      · rw [if_pos hc] at hx
        cases hf : findGt cs with
        | none =>
          simp only [hf] at hx
          rw [List.mem_cons] at hx
          rcases hx with hx | hx
          · rw [hx, hc]; exact List.mem_cons_self _ _
          · exact List.mem_cons_of_mem c (ih cs hlen x hx)
        | some p =>
          cases p with
          | mk b a =>
            simp only [hf] at hx
            by_cases hb : b = []
            · rw [if_pos hb] at hx
              rw [List.mem_cons] at hx
              rcases hx with hx | hx
              · rw [hx, hc]; exact List.mem_cons_self _ _
              · exact List.mem_cons_of_mem c (ih cs hlen x hx)
            · rw [if_neg hb] at hx
              have hlt := findGt_snd_length hf
              have hmem : x ∈ a := ih a (by omega) x hx
              obtain ⟨hcs, _⟩ := findGt_decomp hf
              apply List.mem_cons_of_mem c
              rw [hcs]
              exact List.mem_append_right b (List.mem_cons_of_mem '>' hmem)
      · rw [if_neg hc] at hx
        rw [List.mem_cons] at hx
        rcases hx with hx | hx
        · rw [hx]; exact List.mem_cons_self _ _
        · exact List.mem_cons_of_mem c (ih cs hlen x hx)

theorem stripTags_subset {l : List Char} {c : Char} (h : c ∈ stripTags l) : c ∈ l :=
  stripTags_subset_aux l.length l (le_refl _) c h

theorem tfRun_stripTags_aux :
    ∀ (n : Nat) (l : List Char), l.length ≤ n →
      tfRun TfState.normal (stripTags l) ≠ TfState.dead := by
  intro n
  induction n with
  | zero =>
    intro l h
    have : l = [] := List.length_eq_zero.mp (Nat.le_zero.mp h)
    subst this
    simp [show stripTags [] = [] from rfl, tfRun]
  | succ n ih =>
    intro l h
    cases l with
    | nil => simp [show stripTags [] = [] from rfl, tfRun]
    | cons c cs =>
      rw [stripTags_cons]
      have hlen : cs.length ≤ n := by simp only [List.length_cons] at h; omega
      by_cases hc : c = '<'
      · rw [if_pos hc]
        cases hf : findGt cs with
        | none =>
          simp only [hf]
          have hgt : '>' ∉ cs := findGt_none_not_mem hf
          have hid : stripTags cs = cs := stripTags_eq_of_no_gt hgt
          rw [hid, tfRun_cons]
          rw [show tfStep TfState.normal '<' = TfState.opened from by decide]
          exact tfRun_no_gt cs TfState.opened hgt (by simp)
        | some p =>
          cases p with
          | mk b a =>
            simp only [hf]
            obtain ⟨hcs, hgb⟩ := findGt_decomp hf
            have hlta := findGt_snd_length hf
            by_cases hb : b = []
            · rw [if_pos hb]
              subst hb
              rw [List.nil_append] at hcs
              rw [hcs, stripTags_cons, if_neg (by decide)]
              rw [tfRun_cons, show tfStep TfState.normal '<' = TfState.opened from by decide]
              rw [tfRun_cons, show tfStep TfState.opened '>' = TfState.normal from by decide]
              exact ih a (by omega)
            · rw [if_neg hb]
              exact ih a (by omega)
      · rw [if_neg hc, tfRun_cons]
        rw [show tfStep TfState.normal c = TfState.normal from by simp [tfStep, hc]]
        exact ih cs hlen

theorem tfRun_fix_aux :
    ∀ (n : Nat) (l : List Char), l.length ≤ n →
      tfRun TfState.normal l ≠ TfState.dead → stripTags l = l := by
  intro n
  induction n with
  | zero =>
    intro l h _
    have : l = [] := List.length_eq_zero.mp (Nat.le_zero.mp h)
    subst this
    rfl
  | succ n ih =>
    intro l h hrun
    cases l with
    | nil => rfl
    | cons c cs =>
      rw [stripTags_cons]
      have hlen : cs.length ≤ n := by simp only [List.length_cons] at h; omega
      rw [tfRun_cons] at hrun
      by_cases hc : c = '<'
      · rw [if_pos hc]
        rw [hc, show tfStep TfState.normal '<' = TfState.opened from by decide] at hrun
        cases hf : findGt cs with
        | none =>
          simp only [hf]
          have hgt : '>' ∉ cs := findGt_none_not_mem hf
          rw [stripTags_eq_of_no_gt hgt, hc]
        | some p =>
          cases p with
          | mk b a =>
            simp only [hf]
            obtain ⟨hcs, hgb⟩ := findGt_decomp hf
            by_cases hb : b = []
            · rw [if_pos hb]
              subst hb
              rw [List.nil_append] at hcs
              have hnorm : tfRun TfState.normal cs ≠ TfState.dead := by
                rw [hcs, tfRun_cons,
                  show tfStep TfState.normal '>' = TfState.normal from by decide]
                rw [hcs, tfRun_cons,
                  show tfStep TfState.opened '>' = TfState.normal from by decide] at hrun
                exact hrun
              rw [ih cs hlen hnorm, hc]
            · exfalso
              obtain ⟨d, b', hb'⟩ : ∃ d b', b = d :: b' := by
                cases b with
                | nil => exact absurd rfl hb
                | cons d b' => exact ⟨d, b', rfl⟩
              have hd : d ≠ '>' := fun hx => hgb (by rw [hb', hx]; exact List.mem_cons_self _ _)
              have hgb' : '>' ∉ b' := fun hx => hgb (by rw [hb']; exact List.mem_cons_of_mem d hx)
              rw [hcs, hb'] at hrun
              rw [List.cons_append, tfRun_cons,
                show tfStep TfState.opened d = TfState.banned from by simp [tfStep, hd]] at hrun
              rw [tfRun_append, tfRun_banned_stay b' hgb', tfRun_cons,
                show tfStep TfState.banned '>' = TfState.dead from by decide] at hrun
              exact hrun (tfRun_dead a)
      · rw [if_neg hc]
        rw [show tfStep TfState.normal c = TfState.normal from by simp [tfStep, hc]] at hrun
        rw [ih cs hlen hrun]

theorem pyUnescape_id {l : List Char} (h : '&' ∉ l) : pyUnescape l = l :=
  pyUnescapeAux_id l.length l (le_refl _) h

theorem pyStrip_collapseWS (s : List Char) :
    pyStrip (collapseWS s) = collapseWS s := by
  unfold collapseWS
  apply pyStrip_joinSpace
  intro w hw
  have hg := pyWords_good s.length s (le_refl _) w hw
  refine ⟨hg.1, ?_, ?_⟩
  · intro c hc
    cases w with
    | nil => simp at hc
    | cons a t =>
      rw [List.head?_cons, Option.some.injEq] at hc
      exact hc ▸ hg.2 a (List.mem_cons_self a t)
  · intro c hc
    obtain ⟨hne, hcl⟩ := List.mem_getLast?_eq_getLast (x := c) (by rw [hc]; rfl)
    exact hcl ▸ hg.2 _ (List.getLast_mem hne)

theorem collapseWS_idem (s : List Char) :
    collapseWS (collapseWS s) = collapseWS s := by
  unfold collapseWS
  rw [pyWords_joinSpace (pyWords s) (pyWords_good s.length s (le_refl _))]

theorem collapseWS_mem {s : List Char} {c : Char} (h : c ∈ collapseWS s) :
    c ∈ s ∨ c = ' ' := by
  unfold collapseWS at h
  rcases mem_joinSpace (pyWords s) c h with ⟨w, hw, hc⟩ | hsp
  · exact Or.inl (pyWords_chars s.length s (le_refl _) w hw c hc)
  · exact Or.inr hsp

theorem tfRun_collapse_aux :
    ∀ (n : Nat) (l : List Char), l.length ≤ n →
      ∀ s : TfState, s ≠ TfState.dead → tfRun s l ≠ TfState.dead →
        tfRun s (collapseWS l) ≠ TfState.dead := by
  intro n
  induction n with
  | zero =>
    intro l h s hs _
    have : l = [] := List.length_eq_zero.mp (Nat.le_zero.mp h)
    subst this
    exact hs
  | succ n ih =>
    intro l h s hs hrun
    cases l with
    | nil => exact hs
    | cons c cs =>
      have hlen : cs.length ≤ n := by simp only [List.length_cons] at h; omega
      rw [tfRun_cons] at hrun
      by_cases hws : pySpace c
      · have hcol : collapseWS (c :: cs) = collapseWS cs := by
          unfold collapseWS
          rw [pyWords_cons, if_pos hws]
        rw [hcol]
        have hcns := ws_not_special hws
        cases s with
        | normal =>
          rw [show tfStep TfState.normal c = TfState.normal from by
            simp [tfStep, hcns.1]] at hrun
          exact ih cs hlen TfState.normal (by simp) hrun
        | opened =>
          rw [show tfStep TfState.opened c = TfState.banned from by
            simp [tfStep, hcns.2]] at hrun
          have hg : '>' ∉ cs := tfRun_banned_no_gt cs hrun
          have hg2 : '>' ∉ collapseWS cs := by
            intro hm
            rcases collapseWS_mem hm with hx | hx
            · exact hg hx
            · exact absurd hx (by decide)
          exact tfRun_no_gt _ TfState.opened hg2 (by simp)
        | banned =>
          rw [show tfStep TfState.banned c = TfState.banned from by
            simp [tfStep, hcns.2]] at hrun
          exact ih cs hlen TfState.banned (by simp) hrun
        | dead => exact absurd rfl hs
      · have hsplit : cs = cs.takeWhile (fun x => !pySpace x) ++
            cs.dropWhile (fun x => !pySpace x) :=
          (List.takeWhile_append_dropWhile (fun x => !pySpace x) cs).symm
        have hcol : collapseWS (c :: cs) =
            joinSpace ((c :: cs.takeWhile (fun x => !pySpace x)) ::
              pyWords (cs.dropWhile (fun x => !pySpace x))) := by
          unfold collapseWS
          rw [pyWords_cons, if_neg (by simp [hws])]
        have hreal : tfRun (tfRun s (c :: cs.takeWhile (fun x => !pySpace x)))
            (cs.dropWhile (fun x => !pySpace x)) ≠ TfState.dead := by
          rw [← tfRun_append, List.cons_append, ← hsplit, tfRun_cons]
          exact hrun
        have ht : tfRun s (c :: cs.takeWhile (fun x => !pySpace x)) ≠ TfState.dead :=
          fun heq => hreal (by rw [heq]; exact tfRun_dead _)
        cases hpw : pyWords (cs.dropWhile (fun x => !pySpace x)) with
        | nil =>
          rw [hcol, hpw]
          exact ht
        | cons p ps =>
          rw [hcol, hpw]
          rw [show joinSpace ((c :: cs.takeWhile (fun x => !pySpace x)) :: p :: ps) =
            (c :: cs.takeWhile (fun x => !pySpace x)) ++ ' ' :: joinSpace (p :: ps)
            from rfl]
          rw [tfRun_append, tfRun_cons]
          have hdwne : cs.dropWhile (fun x => !pySpace x) ≠ [] := by
            intro hx
            rw [hx] at hpw
            simp [show pyWords [] = [] from rfl] at hpw
          obtain ⟨d, dw', hdw⟩ : ∃ d dw',
              cs.dropWhile (fun x => !pySpace x) = d :: dw' := by
            cases hx : cs.dropWhile (fun x => !pySpace x) with
            | nil => exact absurd hx hdwne
            | cons d dw' => exact ⟨d, dw', rfl⟩
          have hd : pySpace d = true := by
            have hh := head_dropWhile_false (fun x => !pySpace x) cs
              (c := d) (by rw [hdw]; rfl)
            simpa using hh
          have hdns := ws_not_special hd
          have hpw' : pyWords dw' = p :: ps := by
            rw [← hpw, hdw, pyWords_cons, if_pos hd]
          have hcol' : collapseWS dw' = joinSpace (p :: ps) := by
            unfold collapseWS
            rw [hpw']
          rw [← hcol']
          have hreal' : tfRun (tfStep (tfRun s (c :: cs.takeWhile (fun x => !pySpace x))) d)
              dw' ≠ TfState.dead := by
            rw [← tfRun_cons, ← hdw]
            exact hreal
          have hsteps : tfStep (tfRun s (c :: cs.takeWhile (fun x => !pySpace x))) ' ' =
              tfStep (tfRun s (c :: cs.takeWhile (fun x => !pySpace x))) d := by
            cases tfRun s (c :: cs.takeWhile (fun x => !pySpace x)) with
            | normal => simp [tfStep, hdns.1]
            | opened => simp [tfStep, hdns.2]
            | banned => simp [tfStep, hdns.2]
            | dead => rfl
          rw [hsteps]
          have hlen' : dw'.length ≤ n := by
            have h1 := dropWhile_length_le (fun x => !pySpace x) cs
            rw [hdw] at h1
            simp only [List.length_cons] at h1
            omega
          exact ih dw' hlen' _ (tfStep_ne_dead ht hdns.2) hreal'

/-- A second tag-stripping pass is the identity on the whitespace-collapse
of a first pass's output: the first pass leaves no `<[^>]+>` match, and
collapapsing whitespace cannot create one. -/
theorem stripTags_collapse_fix (l : List Char) :
    stripTags (collapseWS (stripTags l)) = collapseWS (stripTags l) :=
  tfRun_fix_aux (collapseWS (stripTags l)).length _ (le_refl _)
    (tfRun_collapse_aux (stripTags l).length (stripTags l) (le_refl _)
      TfState.normal (by simp)
      (tfRun_stripTags_aux l.length l (le_refl _)))

theorem clean_html_idem {s : List Char} (hamp : '&' ∉ s) :
    clean_html (clean_html s) = clean_html s := by
  by_cases hs : s = []
  · subst hs
    rfl
  · have hamp1 : '&' ∉ stripTags s := fun hc => hamp (stripTags_subset hc)
    have h1 : clean_html s = collapseWS (stripTags s) := by
      unfold clean_html
      rw [if_neg hs, pyUnescape_id hamp1, pyStrip_collapseWS]
    rw [h1]
    by_cases ht : collapseWS (stripTags s) = []
    · rw [ht]
      rfl
    · have hamp2 : '&' ∉ collapseWS (stripTags s) := by
        intro hc
        rcases collapseWS_mem hc with h | h
        · exact hamp1 h
        · exact absurd h (by decide)
      unfold clean_html
      rw [if_neg ht, stripTags_collapse_fix, pyUnescape_id hamp2, collapseWS_idem,
        pyStrip_collapseWS]

/-- C8 counterexample: the Text Normalizer is not idempotent — entities are
re-decoded on the second pass: normalizing `"&amp;amp;"` yields `"&amp;"`,
and normalizing that yields `"&"`. -/
theorem clean_html_not_idempotent :
    clean_html (clean_html "&amp;amp;".toList) ≠ clean_html "&amp;amp;".toList ∧
    clean_html "&amp;amp;".toList = "&amp;".toList ∧
    clean_html "&amp;".toList = "&".toList := by
  decide

/-- C8 (amended): normalizing `"<p>A &amp; B</p>"` yields `"A & B"`, and the
Text Normalizer is idempotent on every input containing no `'&'` (in
general a second pass re-decodes entities produced by the first). -/
theorem clean_html_idempotent_amended :
    clean_html "<p>A &amp; B</p>".toList = "A & B".toList ∧
    ∀ s : List Char, '&' ∉ s →
      clean_html (clean_html s) = clean_html s :=
  ⟨by decide, fun _ h1 => clean_html_idem h1⟩

/-- Witness for C8 (amended) at a concrete input containing markup, a
surviving `'<'` and irregular whitespace. -/
theorem clean_html_idempotent_witness :
    clean_html (clean_html "x <b>y</b>  < z ".toList) =
      clean_html "x <b>y</b>  < z ".toList :=
  clean_html_idempotent_amended.2 "x <b>y</b>  < z ".toList (by decide)

/-- A sample eligible empty row. -/
def rowC6Ex : Row :=
  ⟨Cell.num 0, Cell.str [], Cell.na, Cell.na, Cell.str "Samsung".toList,
    Cell.str "Galaxy S21".toList, Cell.str "Telefon".toList, Cell.na, Cell.na,
    Cell.na⟩

/-- Witness for C6: a gate-passing payload's result satisfies the gate, and
an eligible empty row falls back to the rule-based generators when the
adapter yields nothing. -/
theorem llm_gate_and_fallback_witness :
    (45 ≤ llmResEx.title.length ∧ llmResEx.title.length ≤ 60 ∧
      120 ≤ llmResEx.description.length ∧ llmResEx.description.length ≤ 155 ∧
      llmResEx.keywords ≠ []) ∧
    rowStep none rowC6Ex =
      { rowC6Ex with
        title := Cell.str (generate_title (cellToStr rowC6Ex.brand)
          (cellToStr rowC6Ex.label) (cellToStr rowC6Ex.mainCategory)
          (cellToStr rowC6Ex.category) (cellToStr rowC6Ex.subCategory)),
        description := Cell.str (generate_description
          (clean_html (cellToStr rowC6Ex.details)) (cellToStr rowC6Ex.brand)
          (cellToStr rowC6Ex.label)
          (pyOrElse (cellToStr rowC6Ex.subCategory)
            (pyOrElse (cellToStr rowC6Ex.category)
              (cellToStr rowC6Ex.mainCategory)))),
        keywords := Cell.str (generate_keywords (cellToStr rowC6Ex.brand)
          (cellToStr rowC6Ex.label) (cellToStr rowC6Ex.mainCategory)
          (cellToStr rowC6Ex.category) (cellToStr rowC6Ex.subCategory)
          (clean_html (cellToStr rowC6Ex.details))) } :=
  ⟨llm_gate_and_fallback.1 (some llmPayloadEx) llmResEx (by decide),
   llm_gate_and_fallback.2 rowC6Ex rfl rfl rfl rfl⟩
